import Mathlib

/-!
Material model of the ray tracer (`material.h`).

Shallow embedding of `src/rt_mp_from_zero/material.h` and
`src/rt_mp_from_zero/world_env/material.h`.  The two files agree on `reflect`,
`refract`, `schlick` and the three `scatter` methods; `random_in_unit_sphere`
differs between them and is embedded once for each file.

Numbers: the C++ `float` is idealised as an arbitrary linearly ordered field
`F`; rounding, infinities and NaN are outside the model.  The square root of
`<cmath>` is a parameter `sqrt : F → F`; the theorems that depend on what it
computes assume `IsSqrt sqrt`, which holds for `Real.sqrt`.

Randomness: every value drawn from a generator in the source is an explicit
argument of the embedded function.  The rejection loop of
`random_in_unit_sphere` reads its draws from a stream and is bounded by a
number of passes.
-/

namespace Raytracer

/-! ## Vector and ray primitives (`geometry.h`) -/

/-- Modelled from the spec: `geometry.h` is not among the sources.  The spec
describes `vec3` as a value of three floating-point components. -/
structure vec3 (F : Type) where
  x : F
  y : F
  z : F

/-- Modelled from the spec: the ray type of `geometry.h`, a value with an
origin and a direction (constructed in the source as `ray(origin, direction)`
and read through `.direction`). -/
structure ray (F : Type) where
  origin : vec3 F
  direction : vec3 F

/-- Modelled from the spec: the fields of the intersection record of
`geometry.h` that `material.h` reads, the hit point `p` and the surface
normal `normal`. -/
structure intersec_record (F : Type) where
  p : vec3 F
  normal : vec3 F

section Primitives

variable {F : Type} [LinearOrderedField F]

/-- Modelled from the spec: component-wise vector addition of `geometry.h`. -/
instance : Add (vec3 F) where
  add a b := ⟨a.x + b.x, a.y + b.y, a.z + b.z⟩

/-- Modelled from the spec: component-wise vector subtraction of `geometry.h`. -/
instance : Sub (vec3 F) where
  sub a b := ⟨a.x - b.x, a.y - b.y, a.z - b.z⟩

/-- Modelled from the spec: vector negation of `geometry.h`. -/
instance : Neg (vec3 F) where
  neg a := ⟨-a.x, -a.y, -a.z⟩

/-- Modelled from the spec: scalar multiplication `t * v` of `geometry.h`. -/
instance : HMul F (vec3 F) (vec3 F) where
  hMul t v := ⟨t * v.x, t * v.y, t * v.z⟩

/-- Modelled from the spec: scalar multiplication `v * t` of `geometry.h`. -/
instance : HMul (vec3 F) F (vec3 F) where
  hMul v t := ⟨v.x * t, v.y * t, v.z * t⟩

/-- Modelled from the spec: division of a vector by a scalar, `v / t`, of
`geometry.h`. -/
instance : HDiv (vec3 F) F (vec3 F) where
  hDiv v t := ⟨v.x / t, v.y / t, v.z / t⟩

/-- Modelled from the spec: the dot product of `geometry.h`. -/
def dot (a b : vec3 F) : F :=
  a.x * b.x + a.y * b.y + a.z * b.z

/-- Modelled from the spec: `vec3::squared_length` of `geometry.h`. -/
def vec3.squared_length (v : vec3 F) : F :=
  v.x * v.x + v.y * v.y + v.z * v.z

/-- Modelled from the spec: `vec3::length` of `geometry.h`, the square root of
the squared length. -/
def vec3.length (sqrt : F → F) (v : vec3 F) : F :=
  sqrt (v.x * v.x + v.y * v.y + v.z * v.z)

/-- Modelled from the spec: `unit_vector` of `geometry.h`, the vector divided
by its length. -/
def unit_vector (sqrt : F → F) (v : vec3 F) : vec3 F :=
  v / v.length sqrt

/-- The property of `<cmath>`'s `sqrt` that the geometric theorems rely on: on
a non-negative argument it returns the non-negative root. -/
def IsSqrt (sqrt : F → F) : Prop :=
  ∀ x : F, 0 ≤ x → 0 ≤ sqrt x ∧ sqrt x * sqrt x = x

end Primitives

/-! ## Geometric optics -/

section Optics

variable {F : Type} [LinearOrderedField F]

/-- `reflect` (material.h:24-26, world_env/material.h:110-112). -/
def reflect (v n : vec3 F) : vec3 F :=
  v - (2 : F) * dot v n * n

/-- `refract` (material.h:29-40, world_env/material.h:115-127).  The C++
function returns a flag and writes the out-parameter `refracted` only when the
flag is true; here the pair (flag, value of `refracted` afterwards) is
returned, `refracted` being the value the out-parameter held before. -/
def refract (sqrt : F → F) (v n : vec3 F) (ni_over_nt : F) (refracted : vec3 F) :
    Bool × vec3 F :=
  let uv := unit_vector sqrt v
  let dt := dot uv n
  let discriminant := 1 - ni_over_nt * ni_over_nt * (1 - dt * dt)
  if discriminant > 0 then
    (true, ni_over_nt * (uv - n * dt) - n * sqrt discriminant)
  else
    (false, refracted)

/-- `schlick` (material.h:42-46, world_env/material.h:130-134). -/
def schlick (cosine ref_idx : F) : F :=
  let r0 := (1 - ref_idx) / (1 + ref_idx)
  let r0 := r0 * r0
  r0 + (1 - r0) * (1 - cosine) ^ 5

end Optics

/-! ## Materials -/

section Materials

variable {F : Type} [LinearOrderedField F]

/-- What a `scatter` method leaves behind: the returned flag and the final
values of the out-parameters `attenuation` and `scattered`. -/
structure scatter_result (F : Type) where
  ok : Bool
  attenuation : vec3 F
  scattered : ray F

/-- `lambertian::scatter` (material.h:56-61, world_env/material.h:26-31).
The argument `s` is the value returned by the call `random_in_unit_sphere()`. -/
def lambertian_scatter (albedo : vec3 F) (_r_in : ray F) (rec : intersec_record F)
    (s : vec3 F) : scatter_result F :=
  let target := rec.p + rec.normal + s
  let scattered : ray F := ⟨rec.p, target - rec.p⟩
  let attenuation := albedo
  ⟨true, attenuation, scattered⟩

/-- `metal::scatter` (material.h:69-74, world_env/material.h:39-44). -/
def metal_scatter (sqrt : F → F) (albedo : vec3 F) (r_in : ray F)
    (rec : intersec_record F) : scatter_result F :=
  let reflected := reflect (unit_vector sqrt r_in.direction) rec.normal
  let scattered : ray F := ⟨rec.p, reflected⟩
  let attenuation := albedo
  ⟨decide (dot scattered.direction rec.normal > 0), attenuation, scattered⟩

/-- The first `if`/`else` of `dielectric::scatter` (material.h:94-105,
world_env/material.h:65-76): the values it assigns to the locals
`outward_normal`, `ni_over_nt` and `cosine`, in this order. -/
def dielectric_side (sqrt : F → F) (ref_idx : F) (r_in : ray F)
    (rec : intersec_record F) : vec3 F × F × F :=
  if dot r_in.direction rec.normal > 0 then
    let outward_normal := -rec.normal
    let ni_over_nt := ref_idx
    let cosine := dot r_in.direction rec.normal / r_in.direction.length sqrt
    let cosine := sqrt (1 - ref_idx * ref_idx * (1 - cosine * cosine))
    (outward_normal, ni_over_nt, cosine)
  else
    let outward_normal := rec.normal
    let ni_over_nt := 1 / ref_idx
    let cosine := -dot r_in.direction rec.normal / r_in.direction.length sqrt
    (outward_normal, ni_over_nt, cosine)

/-- The call of `refract` made by `dielectric::scatter` (material.h:106,
world_env/material.h:77): the flag it returns and the value of the local
`refracted` after the call.  `refracted0` is the value of the
default-constructed local `vec3 refracted;` before the call. -/
def dielectric_refract (sqrt : F → F) (ref_idx : F) (r_in : ray F)
    (rec : intersec_record F) (refracted0 : vec3 F) : Bool × vec3 F :=
  let side := dielectric_side sqrt ref_idx r_in rec
  refract sqrt r_in.direction side.1 side.2.1 refracted0

/-- The second `if`/`else` of `dielectric::scatter` (material.h:106-109,
world_env/material.h:77-80): the value assigned to the local `reflect_prob`. -/
def dielectric_reflect_prob (sqrt : F → F) (ref_idx : F) (r_in : ray F)
    (rec : intersec_record F) (refracted0 : vec3 F) : F :=
  let side := dielectric_side sqrt ref_idx r_in rec
  if (dielectric_refract sqrt ref_idx r_in rec refracted0).1 then
    schlick side.2.2 ref_idx
  else
    1

/-- `dielectric::scatter` (material.h:81-115, world_env/material.h:52-86).
`refracted0` is the value of the default-constructed local `vec3 refracted;`
and `u` is the sample `dis(gen)` drawn for the comparison with
`reflect_prob`. -/
def dielectric_scatter (sqrt : F → F) (ref_idx : F) (r_in : ray F)
    (rec : intersec_record F) (refracted0 : vec3 F) (u : F) : scatter_result F :=
  let reflected := reflect r_in.direction rec.normal
  let attenuation : vec3 F := ⟨1, 1, 1⟩
  let refracted := (dielectric_refract sqrt ref_idx r_in rec refracted0).2
  let reflect_prob := dielectric_reflect_prob sqrt ref_idx r_in rec refracted0
  if u < reflect_prob then
    ⟨true, attenuation, ⟨rec.p, reflected⟩⟩
  else
    ⟨true, attenuation, ⟨rec.p, refracted⟩⟩

end Materials

/-! ## Sampling utility -/

section Sampling

variable {F : Type} [LinearOrderedField F]

/-- Modelled from the spec: `vec3::make_unit_vector` of `geometry.h`, the
normalisation of a vector to unit length, done by scaling each component with
the reciprocal of the length. -/
def vec3.make_unit_vector (sqrt : F → F) (v : vec3 F) : vec3 F :=
  let k := 1 / sqrt (v.x * v.x + v.y * v.y + v.z * v.z)
  ⟨v.x * k, v.y * k, v.z * k⟩

/-- `random_in_unit_sphere` of `material.h` (lines 9-21).  `dis j` is the value
of the `j`-th call `dis(gen)`, a draw from `[0, 1)`; the three draws of one
candidate are taken in the order they are written.  The first numeric argument
bounds the number of passes through the `do`/`while` loop (`none` when it is
used up), the second is the number of draws consumed so far. -/
def random_in_unit_sphere (sqrt : F → F) (dis : Nat → F) : Nat → Nat → Option (vec3 F)
  | 0, _ => none
  | fuel + 1, i =>
    let p : vec3 F := (2 : F) * (⟨dis i, dis (i + 1), dis (i + 2)⟩ : vec3 F)
    let p : vec3 F := p - ⟨1, 1, 1⟩
    let p : vec3 F := p.make_unit_vector sqrt
    if p.squared_length ≥ 1 then random_in_unit_sphere sqrt dis fuel (i + 3) else some p

/-- `random_in_unit_sphere` of `world_env/material.h` (lines 92-107).  `dis j`
is the value of the `j`-th call `dis(gen)`, a draw from `[-1, 1)`; the numeric
arguments are as for the variant of `material.h`. -/
def world_env.random_in_unit_sphere (sqrt : F → F) (dis : Nat → F) :
    Nat → Nat → Option (vec3 F)
  | 0, _ => none
  | fuel + 1, i =>
    let p : vec3 F := ⟨dis i, dis (i + 1), dis (i + 2)⟩
    let p : vec3 F := p.make_unit_vector sqrt
    if p.squared_length ≥ 1 then world_env.random_in_unit_sphere sqrt dis fuel (i + 3)
    else some p

end Sampling

/-! ## Evaluation lemmas for the primitives -/

section Lemmas

theorem vec3.ext_iff3 {F : Type} (a b : vec3 F) :
    a = b ↔ a.x = b.x ∧ a.y = b.y ∧ a.z = b.z := by
  cases a; cases b; simp

variable {F : Type} [LinearOrderedField F]

@[simp] theorem vec3.add_x (a b : vec3 F) : (a + b).x = a.x + b.x := rfl
@[simp] theorem vec3.add_y (a b : vec3 F) : (a + b).y = a.y + b.y := rfl
@[simp] theorem vec3.add_z (a b : vec3 F) : (a + b).z = a.z + b.z := rfl
@[simp] theorem vec3.sub_x (a b : vec3 F) : (a - b).x = a.x - b.x := rfl
@[simp] theorem vec3.sub_y (a b : vec3 F) : (a - b).y = a.y - b.y := rfl
@[simp] theorem vec3.sub_z (a b : vec3 F) : (a - b).z = a.z - b.z := rfl
@[simp] theorem vec3.neg_x (a : vec3 F) : (-a).x = -a.x := rfl
@[simp] theorem vec3.neg_y (a : vec3 F) : (-a).y = -a.y := rfl
@[simp] theorem vec3.neg_z (a : vec3 F) : (-a).z = -a.z := rfl
@[simp] theorem vec3.smul_x (t : F) (a : vec3 F) : (t * a).x = t * a.x := rfl
@[simp] theorem vec3.smul_y (t : F) (a : vec3 F) : (t * a).y = t * a.y := rfl
@[simp] theorem vec3.smul_z (t : F) (a : vec3 F) : (t * a).z = t * a.z := rfl
@[simp] theorem vec3.muls_x (a : vec3 F) (t : F) : (a * t).x = a.x * t := rfl
@[simp] theorem vec3.muls_y (a : vec3 F) (t : F) : (a * t).y = a.y * t := rfl
@[simp] theorem vec3.muls_z (a : vec3 F) (t : F) : (a * t).z = a.z * t := rfl
@[simp] theorem vec3.div_x (a : vec3 F) (t : F) : (a / t).x = a.x / t := rfl
@[simp] theorem vec3.div_y (a : vec3 F) (t : F) : (a / t).y = a.y / t := rfl
@[simp] theorem vec3.div_z (a : vec3 F) (t : F) : (a / t).z = a.z / t := rfl

/-- The square root of the reals satisfies `IsSqrt`. -/
theorem isSqrt_real : IsSqrt Real.sqrt :=
  fun x hx => ⟨Real.sqrt_nonneg x, Real.mul_self_sqrt hx⟩

/-- The squared length is the dot product of a vector with itself. -/
theorem dot_self_eq (v : vec3 F) : dot v v = v.squared_length := rfl

theorem squared_length_nonneg (v : vec3 F) : 0 ≤ v.squared_length := by
  unfold vec3.squared_length
  have h1 := mul_self_nonneg v.x
  have h2 := mul_self_nonneg v.y
  have h3 := mul_self_nonneg v.z
  linarith

/-- The length squares to the squared length. -/
theorem length_mul_self {sqrt : F → F} (hs : IsSqrt sqrt) (v : vec3 F) :
    v.length sqrt * v.length sqrt = v.squared_length :=
  (hs _ (squared_length_nonneg v)).2

theorem length_nonneg {sqrt : F → F} (hs : IsSqrt sqrt) (v : vec3 F) :
    0 ≤ v.length sqrt :=
  (hs _ (squared_length_nonneg v)).1

/-- A vector of length one has squared length one. -/
theorem squared_length_of_length_one {sqrt : F → F} (hs : IsSqrt sqrt) (n : vec3 F)
    (hn : n.length sqrt = 1) : n.squared_length = 1 := by
  have h := length_mul_self hs n
  rw [hn] at h
  linarith

/-- A lawful square root returns the non-negative number whose square it is given. -/
theorem sqrt_mul_self_of_nonneg {sqrt : F → F} (hs : IsSqrt sqrt) (a : F) (ha : 0 ≤ a) :
    sqrt (a * a) = a := by
  obtain ⟨h0, h1⟩ := hs (a * a) (mul_self_nonneg a)
  exact (mul_self_inj h0 ha).1 h1

/-- The length is the non-negative root of the squared length. -/
theorem length_eq_of_squared_length {sqrt : F → F} (hs : IsSqrt sqrt) (v : vec3 F) (a : F)
    (ha : 0 ≤ a) (h : v.squared_length = a * a) : v.length sqrt = a := by
  have : v.length sqrt = sqrt (a * a) := congrArg sqrt h
  rw [this, sqrt_mul_self_of_nonneg hs a ha]

/-- A vector other than the zero vector has a positive squared length. -/
theorem squared_length_pos (v : vec3 F) (hv : v ≠ ⟨0, 0, 0⟩) : 0 < v.squared_length := by
  rcases lt_or_eq_of_le (squared_length_nonneg v) with h | h
  · exact h
  · exfalso
    apply hv
    unfold vec3.squared_length at h
    have h1 := mul_self_nonneg v.x
    have h2 := mul_self_nonneg v.y
    have h3 := mul_self_nonneg v.z
    have hx : v.x * v.x = 0 := by linarith
    have hy : v.y * v.y = 0 := by linarith
    have hz : v.z * v.z = 0 := by linarith
    rw [vec3.ext_iff3]
    exact ⟨mul_self_eq_zero.1 hx, mul_self_eq_zero.1 hy, mul_self_eq_zero.1 hz⟩

/-- A vector other than the zero vector has a positive length. -/
theorem length_pos {sqrt : F → F} (hs : IsSqrt sqrt) (v : vec3 F) (hv : v ≠ ⟨0, 0, 0⟩) :
    0 < v.length sqrt := by
  rcases lt_or_eq_of_le (length_nonneg hs v) with h | h
  · exact h
  · exfalso
    have h1 := length_mul_self hs v
    have h2 := squared_length_pos v hv
    rw [← h] at h1
    simp only [mul_zero] at h1
    linarith

/-- Normalising a non-zero vector gives a vector of squared length one. -/
theorem unit_vector_squared_length {sqrt : F → F} (hs : IsSqrt sqrt) (v : vec3 F)
    (hv : v ≠ ⟨0, 0, 0⟩) : (unit_vector sqrt v).squared_length = 1 := by
  have hL : v.length sqrt ≠ 0 := ne_of_gt (length_pos hs v hv)
  have h1 : v.length sqrt * v.length sqrt = v.x * v.x + v.y * v.y + v.z * v.z :=
    length_mul_self hs v
  simp only [unit_vector, vec3.squared_length, vec3.div_x, vec3.div_y, vec3.div_z]
  field_simp
  linear_combination -h1

/-- The value `refract` stores when the discriminant is positive. -/
theorem refract_of_pos (sqrt : F → F) (v n : vec3 F) (k : F) (refracted : vec3 F)
    (h : 0 < 1 - k * k * (1 - dot (unit_vector sqrt v) n * dot (unit_vector sqrt v) n)) :
    refract sqrt v n k refracted =
      (true, k * (unit_vector sqrt v - n * dot (unit_vector sqrt v) n)
        - n * sqrt (1 - k * k * (1 - dot (unit_vector sqrt v) n * dot (unit_vector sqrt v) n))) := by
  unfold refract
  simp only []
  rw [if_pos h]

/-- The flag `refract` returns when the discriminant is not positive. -/
theorem refract_of_not_pos (sqrt : F → F) (v n : vec3 F) (k : F) (refracted : vec3 F)
    (h : ¬ 0 < 1 - k * k * (1 - dot (unit_vector sqrt v) n * dot (unit_vector sqrt v) n)) :
    refract sqrt v n k refracted = (false, refracted) := by
  unfold refract
  simp only []
  rw [if_neg h]

/-- The normal component of the refraction formula, for a unit normal. -/
theorem refract_formula_dot (u n : vec3 F) (k s : F) (hn : n.squared_length = 1) :
    dot (k * (u - n * dot u n) - n * s) n = -s := by
  simp only [vec3.squared_length] at hn
  simp only [dot, vec3.sub_x, vec3.sub_y, vec3.sub_z, vec3.smul_x, vec3.smul_y, vec3.smul_z,
    vec3.muls_x, vec3.muls_y, vec3.muls_z]
  linear_combination (-(k * (u.x * n.x + u.y * n.y + u.z * n.z) + s)) * hn

/-- The squared length of the part of a unit vector perpendicular to a unit normal. -/
theorem perp_squared_length (u n : vec3 F) (hu : u.squared_length = 1)
    (hn : n.squared_length = 1) :
    (u - dot u n * n).squared_length = 1 - dot u n * dot u n := by
  simp only [vec3.squared_length] at hu hn
  simp only [vec3.squared_length, dot, vec3.sub_x, vec3.sub_y, vec3.sub_z, vec3.smul_x,
    vec3.smul_y, vec3.smul_z]
  linear_combination hu + (u.x * n.x + u.y * n.y + u.z * n.z) ^ 2 * hn

/-- The part of the refraction formula perpendicular to a unit normal is `k` times
the perpendicular part of the incident unit vector. -/
theorem refract_formula_perp (u n : vec3 F) (k s : F) (hn : n.squared_length = 1) :
    ((k * (u - n * dot u n) - n * s) - dot (k * (u - n * dot u n) - n * s) n * n).squared_length
      = k * k * (u - dot u n * n).squared_length := by
  rw [refract_formula_dot u n k s hn]
  simp only [vec3.squared_length, dot, vec3.sub_x, vec3.sub_y, vec3.sub_z, vec3.smul_x,
    vec3.smul_y, vec3.smul_z, vec3.muls_x, vec3.muls_y, vec3.muls_z]
  ring

/-- The refraction formula yields a vector of squared length one. -/
theorem refract_formula_squared_length (u n : vec3 F) (k s : F) (hu : u.squared_length = 1)
    (hn : n.squared_length = 1)
    (hs : s * s = 1 - k * k * (1 - dot u n * dot u n)) :
    (k * (u - n * dot u n) - n * s).squared_length = 1 := by
  simp only [vec3.squared_length] at hu hn
  simp only [dot] at hs
  simp only [vec3.squared_length, dot, vec3.sub_x, vec3.sub_y, vec3.sub_z, vec3.smul_x,
    vec3.smul_y, vec3.smul_z, vec3.muls_x, vec3.muls_y, vec3.muls_z]
  linear_combination k * k * hu
    + (k * (u.x * n.x + u.y * n.y + u.z * n.z) + s) ^ 2 * hn + hs

/-- Normalising with `make_unit_vector` a vector other than zero gives squared
length one. -/
theorem make_unit_vector_squared_length {sqrt : F → F} (hs : IsSqrt sqrt) (v : vec3 F)
    (hv : v ≠ ⟨0, 0, 0⟩) : (v.make_unit_vector sqrt).squared_length = 1 := by
  have hL : sqrt (v.x * v.x + v.y * v.y + v.z * v.z) ≠ 0 := ne_of_gt (length_pos hs v hv)
  have h1 : sqrt (v.x * v.x + v.y * v.y + v.z * v.z) * sqrt (v.x * v.x + v.y * v.y + v.z * v.z)
      = v.x * v.x + v.y * v.y + v.z * v.z := length_mul_self hs v
  simp only [vec3.make_unit_vector, vec3.squared_length]
  field_simp
  linear_combination -h1

/-- One pass of the loop of `material.h`, unfolded. -/
theorem random_in_unit_sphere_succ (sqrt : F → F) (dis : Nat → F) (fuel i : Nat) :
    random_in_unit_sphere sqrt dis (fuel + 1) i =
      if (vec3.make_unit_vector sqrt ((2 : F) * (⟨dis i, dis (i + 1), dis (i + 2)⟩ : vec3 F)
          - (⟨1, 1, 1⟩ : vec3 F))).squared_length ≥ 1
      then random_in_unit_sphere sqrt dis fuel (i + 3)
      else some (vec3.make_unit_vector sqrt
        ((2 : F) * (⟨dis i, dis (i + 1), dis (i + 2)⟩ : vec3 F) - (⟨1, 1, 1⟩ : vec3 F))) := rfl

/-- One pass of the loop of `world_env/material.h`, unfolded. -/
theorem world_env_random_in_unit_sphere_succ (sqrt : F → F) (dis : Nat → F) (fuel i : Nat) :
    world_env.random_in_unit_sphere sqrt dis (fuel + 1) i =
      if ((⟨dis i, dis (i + 1), dis (i + 2)⟩ : vec3 F).make_unit_vector sqrt).squared_length ≥ 1
      then world_env.random_in_unit_sphere sqrt dis fuel (i + 3)
      else some ((⟨dis i, dis (i + 1), dis (i + 2)⟩ : vec3 F).make_unit_vector sqrt) := rfl

/-- With an exact square root the loop of `material.h` rejects every candidate
other than the zero vector. -/
theorem random_in_unit_sphere_none {sqrt : F → F} (hs : IsSqrt sqrt) (dis : Nat → F)
    (h : ∀ j, (2 : F) * (⟨dis j, dis (j + 1), dis (j + 2)⟩ : vec3 F) - (⟨1, 1, 1⟩ : vec3 F)
      ≠ ⟨0, 0, 0⟩)
    (fuel i : Nat) : random_in_unit_sphere sqrt dis fuel i = none := by
  induction fuel generalizing i with
  | zero => rfl
  | succ k ih =>
    rw [random_in_unit_sphere_succ, make_unit_vector_squared_length hs _ (h i),
      if_pos (le_refl 1)]
    exact ih (i + 3)

/-- With an exact square root the loop of `world_env/material.h` rejects every
candidate other than the zero vector. -/
theorem world_env_random_in_unit_sphere_none {sqrt : F → F} (hs : IsSqrt sqrt)
    (dis : Nat → F) (h : ∀ j, (⟨dis j, dis (j + 1), dis (j + 2)⟩ : vec3 F) ≠ ⟨0, 0, 0⟩)
    (fuel i : Nat) : world_env.random_in_unit_sphere sqrt dis fuel i = none := by
  induction fuel generalizing i with
  | zero => rfl
  | succ k ih =>
    rw [world_env_random_in_unit_sphere_succ, make_unit_vector_squared_length hs _ (h i),
      if_pos (le_refl 1)]
    exact ih (i + 3)

/-- The dot product with a normalised vector is the dot product divided by the
length. -/
theorem dot_unit_vector (sqrt : F → F) (v n : vec3 F) :
    dot (unit_vector sqrt v) n = dot v n / v.length sqrt := by
  simp only [dot, unit_vector, vec3.div_x, vec3.div_y, vec3.div_z]
  ring

theorem dot_neg_right (a n : vec3 F) : dot a (-n) = -dot a n := by
  simp only [dot, vec3.neg_x, vec3.neg_y, vec3.neg_z]
  ring

theorem squared_length_neg (n : vec3 F) : (-n).squared_length = n.squared_length := by
  simp only [vec3.squared_length, vec3.neg_x, vec3.neg_y, vec3.neg_z]
  ring

/-- Cauchy-Schwarz for two vectors of squared length one. -/
theorem dot_mul_self_le_one (u n : vec3 F) (hu : u.squared_length = 1)
    (hn : n.squared_length = 1) : dot u n * dot u n ≤ 1 := by
  have h1 := perp_squared_length u n hu hn
  have h2 := squared_length_nonneg (u - dot u n * n)
  linarith

/-- The normal component of a reflection about a unit normal. -/
theorem reflect_dot_of_unit (v n : vec3 F) (hn : n.squared_length = 1) :
    dot (reflect v n) n = -dot v n := by
  simp only [vec3.squared_length] at hn
  simp only [reflect, dot, vec3.sub_x, vec3.sub_y, vec3.sub_z, vec3.smul_x, vec3.smul_y,
    vec3.smul_z]
  linear_combination (-2 * (v.x * n.x + v.y * n.y + v.z * n.z)) * hn

/-- A lawful square root is positive on a positive argument. -/
theorem sqrt_pos_of_pos {sqrt : F → F} (hs : IsSqrt sqrt) (x : F) (hx : 0 < x) :
    0 < sqrt x := by
  obtain ⟨h0, h1⟩ := hs x (le_of_lt hx)
  rcases lt_or_eq_of_le h0 with h | h
  · exact h
  · exfalso
    rw [← h] at h1
    simp only [mul_zero] at h1
    linarith

/-- A lawful square root is at most one on an argument between zero and one. -/
theorem sqrt_le_one {sqrt : F → F} (hs : IsSqrt sqrt) (x : F) (hx0 : 0 ≤ x) (hx1 : x ≤ 1) :
    sqrt x ≤ 1 := by
  obtain ⟨h0, h1⟩ := hs x hx0
  by_contra hc
  have hc2 : 1 < sqrt x := not_le.1 hc
  have : 1 * 1 < sqrt x * sqrt x := mul_lt_mul hc2 (le_of_lt hc2) one_pos h0
  linarith

/-- The base reflectance of a non-negative refractive index lies in `[0, 1]`. -/
theorem base_reflectance_bounds (ref_idx : F) (hri : 0 ≤ ref_idx) :
    0 ≤ (1 - ref_idx) / (1 + ref_idx) * ((1 - ref_idx) / (1 + ref_idx)) ∧
      (1 - ref_idx) / (1 + ref_idx) * ((1 - ref_idx) / (1 + ref_idx)) ≤ 1 := by
  have hpos : 0 < 1 + ref_idx := by linarith
  have h1 : (1 - ref_idx) / (1 + ref_idx) ≤ 1 := by
    rw [div_le_one hpos]
    linarith
  have h2 : -1 ≤ (1 - ref_idx) / (1 + ref_idx) := by
    rw [le_div_iff₀ hpos]
    linarith
  refine ⟨mul_self_nonneg _, ?_⟩
  nlinarith

/-- For a cosine in `[0, 1]` and a non-negative refractive index, `schlick` lies
between the base reflectance and one. -/
theorem schlick_bounds (cosine ref_idx : F) (hri : 0 ≤ ref_idx) (h0 : 0 ≤ cosine)
    (h1 : cosine ≤ 1) :
    ((1 - ref_idx) / (1 + ref_idx)) ^ 2 ≤ schlick cosine ref_idx ∧
      schlick cosine ref_idx ≤ 1 := by
  obtain ⟨hr0, hr1⟩ := base_reflectance_bounds ref_idx hri
  have ht0 : 0 ≤ (1 - cosine) ^ 5 := pow_nonneg (by linarith) 5
  have ht1 : (1 - cosine) ^ 5 ≤ 1 := pow_le_one₀ (by linarith) (by linarith)
  unfold schlick
  simp only [pow_two]
  constructor
  · nlinarith
  · nlinarith

end Lemmas

/-! ## Theorems -/

section Claims

variable {F : Type} [LinearOrderedField F]

/-- C1: for every vector `v` and every vector `n` of length one, the reflection
`reflect v n = v - 2 * dot v n * n` has normal component `dot (reflect v n) n`
equal to `-dot v n`. -/
theorem reflect_dot_normal (sqrt : F → F) (hs : IsSqrt sqrt) (v n : vec3 F)
    (hn : n.length sqrt = 1) :
    reflect v n = v - (2 : F) * dot v n * n ∧ dot (reflect v n) n = -dot v n := by
  refine ⟨rfl, ?_⟩
  have h1 : n.x * n.x + n.y * n.y + n.z * n.z = 1 := squared_length_of_length_one hs n hn
  simp only [reflect, dot, vec3.sub_x, vec3.sub_y, vec3.sub_z, vec3.smul_x, vec3.smul_y,
    vec3.smul_z]
  linear_combination (-2 * (v.x * n.x + v.y * n.y + v.z * n.z)) * h1

/-- Witness of C1 over the reals, at `v = (1, 2, 3)` and `n = (0, 0, 1)`. -/
theorem reflect_dot_normal_witness :
    IsSqrt Real.sqrt ∧ (⟨0, 0, 1⟩ : vec3 ℝ).length Real.sqrt = 1 ∧
      dot (reflect (⟨1, 2, 3⟩ : vec3 ℝ) ⟨0, 0, 1⟩) ⟨0, 0, 1⟩ = -dot (⟨1, 2, 3⟩ : vec3 ℝ) ⟨0, 0, 1⟩ :=
  ⟨isSqrt_real, by simp [vec3.length],
    (reflect_dot_normal Real.sqrt isSqrt_real ⟨1, 2, 3⟩ ⟨0, 0, 1⟩ (by simp [vec3.length])).2⟩

/-- C2: with `u = unit_vector v`, `c = dot u n` and `D = 1 - k^2 * (1 - c^2)`,
`refract v n k` reports failure exactly when `D ≤ 0`, and when `D > 0` it
reports success and stores `k * (u - n * c) - n * sqrt D`. -/
theorem refract_spec (sqrt : F → F) (v n : vec3 F) (k : F) (refracted : vec3 F) :
    ((refract sqrt v n k refracted).1 = false ↔
        1 - k ^ 2 * (1 - dot (unit_vector sqrt v) n ^ 2) ≤ 0) ∧
      (0 < 1 - k ^ 2 * (1 - dot (unit_vector sqrt v) n ^ 2) →
        refract sqrt v n k refracted =
          (true, k * (unit_vector sqrt v - n * dot (unit_vector sqrt v) n)
            - n * sqrt (1 - k ^ 2 * (1 - dot (unit_vector sqrt v) n ^ 2)))) := by
  have e : 1 - k * k * (1 - dot (unit_vector sqrt v) n * dot (unit_vector sqrt v) n)
      = 1 - k ^ 2 * (1 - dot (unit_vector sqrt v) n ^ 2) := by ring
  constructor
  · unfold refract
    simp only [e]
    split_ifs with h
    · simp only [Bool.true_eq_false, false_iff, not_le]
      exact h
    · simp only [true_iff]
      exact not_lt.1 h
  · intro h
    unfold refract
    simp only [e]
    rw [if_pos h]

/-- Witness of C2 over the reals: at `v = (0, 0, -1)`, `n = (0, 0, 1)` and
`k = 2/3` the discriminant is positive and `refract` stores the formula. -/
theorem refract_spec_witness :
    (0 : ℝ) < 1 - (2 / 3) ^ 2 * (1 - dot (unit_vector Real.sqrt ⟨0, 0, -1⟩) ⟨0, 0, 1⟩ ^ 2) ∧
      refract Real.sqrt ⟨0, 0, -1⟩ ⟨0, 0, 1⟩ (2 / 3) ⟨0, 0, 0⟩ =
        (true, (2 / 3 : ℝ) * (unit_vector Real.sqrt ⟨0, 0, -1⟩
            - (⟨0, 0, 1⟩ : vec3 ℝ) * dot (unit_vector Real.sqrt ⟨0, 0, -1⟩) ⟨0, 0, 1⟩)
          - (⟨0, 0, 1⟩ : vec3 ℝ) * Real.sqrt
              (1 - (2 / 3) ^ 2 * (1 - dot (unit_vector Real.sqrt ⟨0, 0, -1⟩) ⟨0, 0, 1⟩ ^ 2))) :=
  ⟨by simp [unit_vector, vec3.length, dot],
    (refract_spec Real.sqrt ⟨0, 0, -1⟩ ⟨0, 0, 1⟩ (2 / 3) ⟨0, 0, 0⟩).2
      (by simp [unit_vector, vec3.length, dot])⟩

/-- C3 (Snell's law): for a non-zero incident `v`, a normal `n` of length one and a
ratio `k ≥ 0` with positive discriminant, `refract` succeeds and the vector `r`
it stores satisfies: the length of the part of `r` perpendicular to `n`, divided
by the length of `r`, equals `k` times the length of the part of
`unit_vector v` perpendicular to `n`. -/
theorem refract_snell (sqrt : F → F) (hs : IsSqrt sqrt) (v n : vec3 F) (k : F)
    (refracted : vec3 F) (hv : v ≠ ⟨0, 0, 0⟩) (hn : n.length sqrt = 1) (hk : 0 ≤ k)
    (hD : 0 < 1 - k ^ 2 * (1 - dot (unit_vector sqrt v) n ^ 2)) :
    (refract sqrt v n k refracted).1 = true ∧
      ((refract sqrt v n k refracted).2
          - dot (refract sqrt v n k refracted).2 n * n).length sqrt
        / (refract sqrt v n k refracted).2.length sqrt
        = k * (unit_vector sqrt v - dot (unit_vector sqrt v) n * n).length sqrt := by
  have hD2 : 0 < 1 - k * k * (1 - dot (unit_vector sqrt v) n * dot (unit_vector sqrt v) n) := by
    have e : 1 - k * k * (1 - dot (unit_vector sqrt v) n * dot (unit_vector sqrt v) n)
        = 1 - k ^ 2 * (1 - dot (unit_vector sqrt v) n ^ 2) := by ring
    rw [e]
    exact hD
  rw [refract_of_pos sqrt v n k refracted hD2]
  refine ⟨rfl, ?_⟩
  have hu := unit_vector_squared_length hs v hv
  have hn2 := squared_length_of_length_one hs n hn
  obtain ⟨_, hss⟩ := hs _ (le_of_lt hD2)
  have hw := length_nonneg hs (unit_vector sqrt v - dot (unit_vector sqrt v) n * n)
  have hww := length_mul_self hs (unit_vector sqrt v - dot (unit_vector sqrt v) n * n)
  have hr := length_eq_of_squared_length hs _ 1 zero_le_one
    (by rw [refract_formula_squared_length _ n k _ hu hn2 hss]; ring)
  have hp := length_eq_of_squared_length hs _ _ (mul_nonneg hk hw)
    (by
      rw [refract_formula_perp (unit_vector sqrt v) n k
        (sqrt (1 - k * k * (1 - dot (unit_vector sqrt v) n * dot (unit_vector sqrt v) n))) hn2,
        ← hww]
      ring)
  simp only []
  rw [hr, hp, div_one]

/-- Witness of C3 over the reals, at the oblique incidence `v = (3, 0, -4)` on
the normal `n = (0, 0, 1)` with ratio `k = 1/2`. -/
theorem refract_snell_witness :
    IsSqrt Real.sqrt ∧ (⟨3, 0, -4⟩ : vec3 ℝ) ≠ ⟨0, 0, 0⟩ ∧
      (⟨0, 0, 1⟩ : vec3 ℝ).length Real.sqrt = 1 ∧ (0 : ℝ) ≤ 1 / 2 ∧
      ((refract Real.sqrt ⟨3, 0, -4⟩ ⟨0, 0, 1⟩ (1 / 2) ⟨0, 0, 0⟩).2
          - dot (refract Real.sqrt ⟨3, 0, -4⟩ ⟨0, 0, 1⟩ (1 / 2) ⟨0, 0, 0⟩).2 ⟨0, 0, 1⟩
            * (⟨0, 0, 1⟩ : vec3 ℝ)).length Real.sqrt
        / (refract Real.sqrt ⟨3, 0, -4⟩ ⟨0, 0, 1⟩ (1 / 2) ⟨0, 0, 0⟩).2.length Real.sqrt
        = 1 / 2 * (unit_vector Real.sqrt ⟨3, 0, -4⟩
            - dot (unit_vector Real.sqrt ⟨3, 0, -4⟩) ⟨0, 0, 1⟩
              * (⟨0, 0, 1⟩ : vec3 ℝ)).length Real.sqrt :=
  have h5 : Real.sqrt (3 * 3 + 0 * 0 + -4 * -4) = 5 := by
    rw [show (3 * 3 + 0 * 0 + -4 * -4 : ℝ) = 5 * 5 by norm_num]
    exact Real.sqrt_mul_self (by norm_num)
  ⟨isSqrt_real, by simp [vec3.ext_iff3], by simp [vec3.length], by norm_num,
    (refract_snell Real.sqrt isSqrt_real ⟨3, 0, -4⟩ ⟨0, 0, 1⟩ (1 / 2) ⟨0, 0, 0⟩
      (by simp [vec3.ext_iff3]) (by simp [vec3.length]) (by norm_num)
      (by
        simp only [unit_vector, vec3.length, dot, vec3.div_x, vec3.div_y, vec3.div_z, h5]
        norm_num)).2⟩

/-- C4: with `reflected = reflect (unit_vector r_in.direction) rec.normal`,
`metal::scatter` returns true exactly when `dot reflected rec.normal > 0`, returns
false whenever that dot product is `≤ 0`, and when it returns true the
attenuation is `albedo` and the scattered ray is `(rec.p, reflected)`. -/
theorem metal_scatter_spec (sqrt : F → F) (albedo : vec3 F) (r_in : ray F)
    (rec : intersec_record F) :
    ((metal_scatter sqrt albedo r_in rec).ok = true ↔
        0 < dot (reflect (unit_vector sqrt r_in.direction) rec.normal) rec.normal) ∧
      (dot (reflect (unit_vector sqrt r_in.direction) rec.normal) rec.normal ≤ 0 →
        (metal_scatter sqrt albedo r_in rec).ok = false) ∧
      ((metal_scatter sqrt albedo r_in rec).ok = true →
        (metal_scatter sqrt albedo r_in rec).attenuation = albedo ∧
        (metal_scatter sqrt albedo r_in rec).scattered
          = ⟨rec.p, reflect (unit_vector sqrt r_in.direction) rec.normal⟩) := by
  refine ⟨?_, ?_, ?_⟩
  · simp only [metal_scatter, gt_iff_lt, decide_eq_true_eq]
  · intro h
    simp only [metal_scatter, gt_iff_lt, decide_eq_false_iff_not, not_lt]
    exact h
  · intro _
    exact ⟨rfl, rfl⟩

/-- Witness of C4 over the reals: a ray travelling along `(0, 0, -1)` onto the
normal `(0, 0, 1)` is scattered, with attenuation `albedo = (4/5, 4/5, 4/5)`. -/
theorem metal_scatter_spec_witness :
    (metal_scatter Real.sqrt (⟨4 / 5, 4 / 5, 4 / 5⟩ : vec3 ℝ) ⟨⟨0, 0, 2⟩, ⟨0, 0, -1⟩⟩
        ⟨⟨0, 0, 1⟩, ⟨0, 0, 1⟩⟩).ok = true ∧
      (metal_scatter Real.sqrt (⟨4 / 5, 4 / 5, 4 / 5⟩ : vec3 ℝ) ⟨⟨0, 0, 2⟩, ⟨0, 0, -1⟩⟩
        ⟨⟨0, 0, 1⟩, ⟨0, 0, 1⟩⟩).attenuation = ⟨4 / 5, 4 / 5, 4 / 5⟩ :=
  have h := metal_scatter_spec Real.sqrt (⟨4 / 5, 4 / 5, 4 / 5⟩ : vec3 ℝ)
    ⟨⟨0, 0, 2⟩, ⟨0, 0, -1⟩⟩ ⟨⟨0, 0, 1⟩, ⟨0, 0, 1⟩⟩
  have hok := h.1.2 (by simp [reflect, unit_vector, vec3.length, dot])
  ⟨hok, (h.2.2 hok).1⟩

/-- C5: for every albedo, incident ray, hit record and sample `s`,
`lambertian::scatter` returns true, the attenuation is `albedo`, the scattered
ray starts at `rec.p`, and its direction, computed as
`(rec.p + rec.normal + s) - rec.p`, equals `rec.normal + s`. -/
theorem lambertian_scatter_spec (albedo : vec3 F) (r_in : ray F) (rec : intersec_record F)
    (s : vec3 F) :
    (lambertian_scatter albedo r_in rec s).ok = true ∧
      (lambertian_scatter albedo r_in rec s).attenuation = albedo ∧
      (lambertian_scatter albedo r_in rec s).scattered.origin = rec.p ∧
      (lambertian_scatter albedo r_in rec s).scattered.direction
        = (rec.p + rec.normal + s) - rec.p ∧
      (lambertian_scatter albedo r_in rec s).scattered.direction = rec.normal + s := by
  refine ⟨rfl, rfl, rfl, rfl, ?_⟩
  simp only [lambertian_scatter, vec3.ext_iff3, vec3.sub_x, vec3.sub_y, vec3.sub_z, vec3.add_x,
    vec3.add_y, vec3.add_z]
  refine ⟨?_, ?_, ?_⟩ <;> ring

/-- C6: for every refractive index, incident ray, hit record and sample,
`dielectric::scatter` returns true, the attenuation is `(1, 1, 1)` and the
scattered ray starts at `rec.p`. -/
theorem dielectric_scatter_spec (sqrt : F → F) (ref_idx : F) (r_in : ray F)
    (rec : intersec_record F) (refracted0 : vec3 F) (u : F) :
    (dielectric_scatter sqrt ref_idx r_in rec refracted0 u).ok = true ∧
      (dielectric_scatter sqrt ref_idx r_in rec refracted0 u).attenuation = ⟨1, 1, 1⟩ ∧
      (dielectric_scatter sqrt ref_idx r_in rec refracted0 u).scattered.origin = rec.p := by
  unfold dielectric_scatter
  simp only []
  split_ifs <;> exact ⟨rfl, rfl, rfl⟩

/-- C7 (entering case): for a direction `d ≠ 0` with `dot d n ≤ 0` for which
`refract d n (1 / ri)` stores a value `t`, and a sample `u` in `[0, 1)`, the
direction of the scattered ray is `reflect d n` (incident not normalised,
original normal) if `u < schlick (-dot d n / length d) ri`, and `t` otherwise. -/
theorem dielectric_scatter_entering (sqrt : F → F) (ref_idx : F) (r_in : ray F)
    (rec : intersec_record F) (refracted0 : vec3 F) (u : F) (t : vec3 F)
    (_hd : r_in.direction ≠ ⟨0, 0, 0⟩) (hdot : dot r_in.direction rec.normal ≤ 0)
    (ht : refract sqrt r_in.direction rec.normal (1 / ref_idx) refracted0 = (true, t))
    (_hu0 : 0 ≤ u) (_hu1 : u < 1) :
    (dielectric_scatter sqrt ref_idx r_in rec refracted0 u).scattered.direction =
      if u < schlick (-dot r_in.direction rec.normal / r_in.direction.length sqrt) ref_idx
      then reflect r_in.direction rec.normal else t := by
  have hside : dielectric_side sqrt ref_idx r_in rec =
      (rec.normal, 1 / ref_idx,
        -dot r_in.direction rec.normal / r_in.direction.length sqrt) := by
    unfold dielectric_side
    rw [if_neg (not_lt.2 hdot)]
  have hr : dielectric_refract sqrt ref_idx r_in rec refracted0 = (true, t) := by
    unfold dielectric_refract
    simp only [hside]
    exact ht
  have hp : dielectric_reflect_prob sqrt ref_idx r_in rec refracted0 =
      schlick (-dot r_in.direction rec.normal / r_in.direction.length sqrt) ref_idx := by
    unfold dielectric_reflect_prob
    simp only [hr, hside, if_true]
  unfold dielectric_scatter
  simp only [hr, hp]
  split_ifs <;> rfl

/-- Witness of C7 over the reals: glass of index `3/2` hit straight on by a ray
along `(0, 0, -1)`, normal `(0, 0, 1)`, sample `1/2`. -/
theorem dielectric_scatter_entering_witness :
    (⟨0, 0, -1⟩ : vec3 ℝ) ≠ ⟨0, 0, 0⟩ ∧ dot (⟨0, 0, -1⟩ : vec3 ℝ) ⟨0, 0, 1⟩ ≤ 0 ∧
      refract Real.sqrt (⟨0, 0, -1⟩ : vec3 ℝ) ⟨0, 0, 1⟩ (1 / (3 / 2)) ⟨0, 0, 0⟩
        = (true, ⟨0, 0, -1⟩) ∧
      (dielectric_scatter Real.sqrt (3 / 2) ⟨⟨0, 0, 2⟩, ⟨0, 0, -1⟩⟩ ⟨⟨0, 0, 1⟩, ⟨0, 0, 1⟩⟩
          ⟨0, 0, 0⟩ (1 / 2)).scattered.direction =
        if (1 / 2 : ℝ) < schlick (-dot (⟨0, 0, -1⟩ : vec3 ℝ) ⟨0, 0, 1⟩
            / (⟨0, 0, -1⟩ : vec3 ℝ).length Real.sqrt) (3 / 2)
        then reflect ⟨0, 0, -1⟩ ⟨0, 0, 1⟩ else ⟨0, 0, -1⟩ :=
  have ht : refract Real.sqrt (⟨0, 0, -1⟩ : vec3 ℝ) ⟨0, 0, 1⟩ (1 / (3 / 2)) ⟨0, 0, 0⟩
      = (true, ⟨0, 0, -1⟩) := by
    rw [refract_of_pos _ _ _ _ _ (by simp [unit_vector, vec3.length, dot])]
    simp [unit_vector, vec3.length, dot, vec3.ext_iff3]
  ⟨by simp [vec3.ext_iff3], by simp [dot], ht,
    dielectric_scatter_entering Real.sqrt (3 / 2) ⟨⟨0, 0, 2⟩, ⟨0, 0, -1⟩⟩
      ⟨⟨0, 0, 1⟩, ⟨0, 0, 1⟩⟩ ⟨0, 0, 0⟩ (1 / 2) ⟨0, 0, -1⟩ (by simp [vec3.ext_iff3])
      (by simp [dot]) ht (by norm_num) (by norm_num)⟩

/-- C8, as the code has it (exiting case): when `dot d rec.normal > 0`, the
normal used for refraction is `-rec.normal`, the ratio is `ri`, and the cosine
handed to `schlick` is `sqrt (1 - ri^2 * (1 - c^2))` with
`c = dot d rec.normal / length d`, without a factor `ri` in `c`. -/
theorem dielectric_scatter_exiting (sqrt : F → F) (ref_idx : F) (r_in : ray F)
    (rec : intersec_record F) (refracted0 : vec3 F)
    (hdot : 0 < dot r_in.direction rec.normal) :
    dielectric_side sqrt ref_idx r_in rec =
        (-rec.normal, ref_idx,
          sqrt (1 - ref_idx ^ 2
            * (1 - (dot r_in.direction rec.normal / r_in.direction.length sqrt) ^ 2))) ∧
      dielectric_refract sqrt ref_idx r_in rec refracted0 =
        refract sqrt r_in.direction (-rec.normal) ref_idx refracted0 ∧
      ((dielectric_refract sqrt ref_idx r_in rec refracted0).1 = true →
        dielectric_reflect_prob sqrt ref_idx r_in rec refracted0 =
          schlick (sqrt (1 - ref_idx ^ 2
            * (1 - (dot r_in.direction rec.normal / r_in.direction.length sqrt) ^ 2)))
            ref_idx) := by
  have hside : dielectric_side sqrt ref_idx r_in rec =
      (-rec.normal, ref_idx,
        sqrt (1 - ref_idx ^ 2
          * (1 - (dot r_in.direction rec.normal / r_in.direction.length sqrt) ^ 2))) := by
    unfold dielectric_side
    rw [if_pos hdot]
    simp only [pow_two]
  refine ⟨hside, ?_, ?_⟩
  · unfold dielectric_refract
    simp only [hside]
  · intro h
    unfold dielectric_reflect_prob
    simp only [h, hside, if_true]

/-- Witness of C8 as the code has it, over the reals: a ray along `(0, 0, 1)`
leaving through the normal `(0, 0, 1)` with index `2`. -/
theorem dielectric_scatter_exiting_witness :
    0 < dot (⟨0, 0, 1⟩ : vec3 ℝ) ⟨0, 0, 1⟩ ∧
      dielectric_side Real.sqrt (2 : ℝ) ⟨⟨0, 0, 0⟩, ⟨0, 0, 1⟩⟩ ⟨⟨0, 0, 1⟩, ⟨0, 0, 1⟩⟩ =
        (-(⟨0, 0, 1⟩ : vec3 ℝ), 2,
          Real.sqrt (1 - 2 ^ 2 * (1 - (dot (⟨0, 0, 1⟩ : vec3 ℝ) ⟨0, 0, 1⟩
            / (⟨0, 0, 1⟩ : vec3 ℝ).length Real.sqrt) ^ 2))) :=
  ⟨by simp [dot],
    (dielectric_scatter_exiting Real.sqrt (2 : ℝ) ⟨⟨0, 0, 0⟩, ⟨0, 0, 1⟩⟩
      ⟨⟨0, 0, 1⟩, ⟨0, 0, 1⟩⟩ ⟨0, 0, 0⟩ (by simp [dot])).1⟩

/-- C8, counterexample to the claim as stated: for a ray along `(0, 0, 1)`
leaving through the normal `(0, 0, 1)` with index `2`, refraction succeeds and the
cosine handed to `schlick` is `1`, whereas the claimed value, with
`c = ri * dot d rec.normal / length d`, is `sqrt 13`. -/
theorem dielectric_scatter_exiting_counterexample :
    0 < dot (⟨0, 0, 1⟩ : vec3 ℝ) ⟨0, 0, 1⟩ ∧
      (dielectric_refract Real.sqrt (2 : ℝ) ⟨⟨0, 0, 0⟩, ⟨0, 0, 1⟩⟩ ⟨⟨0, 0, 1⟩, ⟨0, 0, 1⟩⟩
        ⟨0, 0, 0⟩).1 = true ∧
      (dielectric_side Real.sqrt (2 : ℝ) ⟨⟨0, 0, 0⟩, ⟨0, 0, 1⟩⟩
        ⟨⟨0, 0, 1⟩, ⟨0, 0, 1⟩⟩).2.2 = 1 ∧
      (dielectric_side Real.sqrt (2 : ℝ) ⟨⟨0, 0, 0⟩, ⟨0, 0, 1⟩⟩
        ⟨⟨0, 0, 1⟩, ⟨0, 0, 1⟩⟩).2.2 ≠
        Real.sqrt (1 - 2 ^ 2 * (1 - (2 * dot (⟨0, 0, 1⟩ : vec3 ℝ) ⟨0, 0, 1⟩
          / (⟨0, 0, 1⟩ : vec3 ℝ).length Real.sqrt) ^ 2)) := by
  have hside : (dielectric_side Real.sqrt (2 : ℝ) ⟨⟨0, 0, 0⟩, ⟨0, 0, 1⟩⟩
      ⟨⟨0, 0, 1⟩, ⟨0, 0, 1⟩⟩) = (-(⟨0, 0, 1⟩ : vec3 ℝ), 2, 1) := by
    simp [dielectric_side, dot, vec3.length]
  refine ⟨by simp [dot], ?_, ?_, ?_⟩
  · unfold dielectric_refract
    rw [hside]
    rw [refract_of_pos _ _ _ _ _ (by
      show (0 : ℝ) < 1 - 2 * 2 * (1 - dot (unit_vector Real.sqrt ⟨0, 0, 1⟩) (-⟨0, 0, 1⟩)
        * dot (unit_vector Real.sqrt ⟨0, 0, 1⟩) (-⟨0, 0, 1⟩))
      simp [unit_vector, vec3.length, dot])]
  · rw [hside]
  · rw [hside]
    simp only [dot, vec3.length]
    norm_num
    intro h
    have h13 : (0 : ℝ) ≤ 13 := by norm_num
    have := Real.mul_self_sqrt h13
    rw [← h] at this
    norm_num at this

/-- C9 (forced reflection): for a sample `u` in `[0, 1)`, whenever `refract`
reports total internal reflection the reflect probability is `1` and the
scattered ray is `(rec.p, reflect r_in.direction rec.normal)`; and whenever the
scattered ray carries the refracted direction, `refract` had stored a value. -/
theorem dielectric_forced_reflection (sqrt : F → F) (ref_idx : F) (r_in : ray F)
    (rec : intersec_record F) (refracted0 : vec3 F) (u : F) (_hu0 : 0 ≤ u) (hu1 : u < 1) :
    ((dielectric_refract sqrt ref_idx r_in rec refracted0).1 = false →
        dielectric_reflect_prob sqrt ref_idx r_in rec refracted0 = 1 ∧
        (dielectric_scatter sqrt ref_idx r_in rec refracted0 u).scattered =
          ⟨rec.p, reflect r_in.direction rec.normal⟩) ∧
      (¬ u < dielectric_reflect_prob sqrt ref_idx r_in rec refracted0 →
        (dielectric_refract sqrt ref_idx r_in rec refracted0).1 = true ∧
        (dielectric_scatter sqrt ref_idx r_in rec refracted0 u).scattered =
          ⟨rec.p, (dielectric_refract sqrt ref_idx r_in rec refracted0).2⟩) := by
  have hp : (dielectric_refract sqrt ref_idx r_in rec refracted0).1 = false →
      dielectric_reflect_prob sqrt ref_idx r_in rec refracted0 = 1 := by
    intro h
    unfold dielectric_reflect_prob
    simp only [h, Bool.false_eq_true, if_false]
  constructor
  · intro h
    refine ⟨hp h, ?_⟩
    unfold dielectric_scatter
    simp only [hp h, if_pos hu1]
  · intro h
    constructor
    · by_contra hf
      rw [Bool.not_eq_true] at hf
      rw [hp hf] at h
      exact h hu1
    · unfold dielectric_scatter
      simp only [if_neg h]

/-- Witness of C9 over the reals: a grazing ray along `(1, 0, 0)` on the normal
`(0, 0, 1)` with index `1/2` undergoes total internal reflection and, for the
sample `1/2`, is reflected. -/
theorem dielectric_forced_reflection_witness :
    (0 : ℝ) ≤ 1 / 2 ∧ (1 / 2 : ℝ) < 1 ∧
      (dielectric_refract Real.sqrt (1 / 2 : ℝ) ⟨⟨0, 0, 0⟩, ⟨1, 0, 0⟩⟩ ⟨⟨1, 0, 0⟩, ⟨0, 0, 1⟩⟩
        ⟨0, 0, 0⟩).1 = false ∧
      (dielectric_scatter Real.sqrt (1 / 2 : ℝ) ⟨⟨0, 0, 0⟩, ⟨1, 0, 0⟩⟩ ⟨⟨1, 0, 0⟩, ⟨0, 0, 1⟩⟩
        ⟨0, 0, 0⟩ (1 / 2)).scattered = ⟨⟨1, 0, 0⟩, reflect ⟨1, 0, 0⟩ ⟨0, 0, 1⟩⟩ :=
  have hside : (dielectric_side Real.sqrt (1 / 2 : ℝ) ⟨⟨0, 0, 0⟩, ⟨1, 0, 0⟩⟩
      ⟨⟨1, 0, 0⟩, ⟨0, 0, 1⟩⟩) = ((⟨0, 0, 1⟩ : vec3 ℝ), 1 / (1 / 2), 0) := by
    simp [dielectric_side, dot, vec3.length]
  have hf : (dielectric_refract Real.sqrt (1 / 2 : ℝ) ⟨⟨0, 0, 0⟩, ⟨1, 0, 0⟩⟩
      ⟨⟨1, 0, 0⟩, ⟨0, 0, 1⟩⟩ ⟨0, 0, 0⟩).1 = false := by
    unfold dielectric_refract
    rw [hside]
    rw [refract_of_not_pos _ _ _ _ _ (by
      show ¬ (0 : ℝ) < 1 - 1 / (1 / 2) * (1 / (1 / 2))
        * (1 - dot (unit_vector Real.sqrt ⟨1, 0, 0⟩) ⟨0, 0, 1⟩
          * dot (unit_vector Real.sqrt ⟨1, 0, 0⟩) ⟨0, 0, 1⟩)
      simp [unit_vector, vec3.length, dot]
      norm_num)]
  ⟨by norm_num, by norm_num, hf,
    ((dielectric_forced_reflection Real.sqrt (1 / 2 : ℝ) ⟨⟨0, 0, 0⟩, ⟨1, 0, 0⟩⟩
      ⟨⟨1, 0, 0⟩, ⟨0, 0, 1⟩⟩ ⟨0, 0, 0⟩ (1 / 2) (by norm_num) (by norm_num)).1 hf).2⟩

/-- C10: for every refractive index `ri ≠ -1`, `schlick 1 ri` is the base
reflectance `((1 - ri) / (1 + ri))^2`. -/
theorem schlick_one (ref_idx : F) (_h : ref_idx ≠ -1) :
    schlick 1 ref_idx = ((1 - ref_idx) / (1 + ref_idx)) ^ 2 := by
  unfold schlick
  simp only []
  ring

/-- Witness of C10 over the rationals, at the refractive index `3/2`, where the
base reflectance is `1/25`. -/
theorem schlick_one_witness :
    (3 / 2 : ℚ) ≠ -1 ∧ schlick 1 (3 / 2 : ℚ) = ((1 - 3 / 2) / (1 + 3 / 2)) ^ 2 ∧
      schlick 1 (3 / 2 : ℚ) = 1 / 25 :=
  ⟨by norm_num, schlick_one (3 / 2 : ℚ) (by norm_num), by norm_num [schlick]⟩

/-- C11, as the code has it: `schlick 0 (3/2)` is exactly `1`, that is
`r0 + (1 - r0) * 1^5`, while the base reflectance is
`r0 = ((1 - 3/2) / (1 + 3/2))^2 = 1/25`; the two differ by `24/25`. -/
theorem schlick_zero :
    schlick (0 : F) (3 / 2) = 1 ∧ ((1 - 3 / 2) / (1 + 3 / 2) : F) ^ 2 = 1 / 25 ∧
      schlick (0 : F) (3 / 2) - 1 / 25 = 24 / 25 := by
  have h : schlick (0 : F) (3 / 2) = 1 := by
    unfold schlick
    simp only []
    ring
  refine ⟨h, by norm_num, ?_⟩
  rw [h]
  norm_num

/-- C11, counterexample to the claim as stated: over the rationals
`schlick 0 (3/2)` does not differ from `1/25` by less than `1/100`. -/
theorem schlick_zero_counterexample :
    ¬ |schlick (0 : ℚ) (3 / 2) - 1 / 25| < 1 / 100 := by
  have h : schlick (0 : ℚ) (3 / 2) = 1 := by
    unfold schlick
    simp only []
    ring
  rw [h]
  norm_num [abs_of_nonneg]

/-- C12: for a refractive index `ri > 1`, a normal of length one and a non-zero
incident direction `d` with `dot d n ≤ 0`, the discriminant of
`refract d n (1 / ri)` is strictly positive, `refract` succeeds, and the reflect
probability of `dielectric::scatter` is `schlick (-dot d n / length d) ri`. -/
theorem dielectric_no_total_internal_reflection (sqrt : F → F) (hs : IsSqrt sqrt)
    (ref_idx : F) (r_in : ray F) (rec : intersec_record F) (refracted0 : vec3 F)
    (hri : 1 < ref_idx) (hn : rec.normal.length sqrt = 1)
    (hd : r_in.direction ≠ ⟨0, 0, 0⟩) (hdot : dot r_in.direction rec.normal ≤ 0) :
    0 < 1 - (1 / ref_idx) ^ 2 * (1 - dot (unit_vector sqrt r_in.direction) rec.normal ^ 2) ∧
      (refract sqrt r_in.direction rec.normal (1 / ref_idx) refracted0).1 = true ∧
      dielectric_reflect_prob sqrt ref_idx r_in rec refracted0 =
        schlick (-dot r_in.direction rec.normal / r_in.direction.length sqrt) ref_idx := by
  have hu := unit_vector_squared_length hs r_in.direction hd
  have hn2 := squared_length_of_length_one hs rec.normal hn
  have hc := dot_mul_self_le_one (unit_vector sqrt r_in.direction) rec.normal hu hn2
  have hk0 : 0 < 1 / ref_idx := by
    apply div_pos one_pos
    linarith
  have hk1 : 1 / ref_idx < 1 := by
    rw [div_lt_one (by linarith)]
    exact hri
  have hkk : 1 / ref_idx * (1 / ref_idx) < 1 := by nlinarith
  have hD : 0 < 1 - 1 / ref_idx * (1 / ref_idx)
      * (1 - dot (unit_vector sqrt r_in.direction) rec.normal
        * dot (unit_vector sqrt r_in.direction) rec.normal) := by
    have h1 : 0 ≤ 1 - dot (unit_vector sqrt r_in.direction) rec.normal
        * dot (unit_vector sqrt r_in.direction) rec.normal := by linarith
    have h2 : 0 ≤ dot (unit_vector sqrt r_in.direction) rec.normal
        * dot (unit_vector sqrt r_in.direction) rec.normal := mul_self_nonneg _
    have h3 : 0 ≤ 1 / ref_idx * (1 / ref_idx) := mul_self_nonneg _
    nlinarith
  have hside : dielectric_side sqrt ref_idx r_in rec =
      (rec.normal, 1 / ref_idx,
        -dot r_in.direction rec.normal / r_in.direction.length sqrt) := by
    unfold dielectric_side
    rw [if_neg (not_lt.2 hdot)]
  have hr := refract_of_pos sqrt r_in.direction rec.normal (1 / ref_idx) refracted0 hD
  refine ⟨?_, ?_, ?_⟩
  · simp only [pow_two]
    exact hD
  · rw [hr]
  · unfold dielectric_reflect_prob dielectric_refract
    simp only [hside, hr, if_true]

/-- Witness of C12 over the reals: glass of index `3/2` hit straight on by a ray
along `(0, 0, -1)` on the normal `(0, 0, 1)`. -/
theorem dielectric_no_total_internal_reflection_witness :
    IsSqrt Real.sqrt ∧ (1 : ℝ) < 3 / 2 ∧ (⟨0, 0, 1⟩ : vec3 ℝ).length Real.sqrt = 1 ∧
      (⟨0, 0, -1⟩ : vec3 ℝ) ≠ ⟨0, 0, 0⟩ ∧ dot (⟨0, 0, -1⟩ : vec3 ℝ) ⟨0, 0, 1⟩ ≤ 0 ∧
      (refract Real.sqrt (⟨0, 0, -1⟩ : vec3 ℝ) ⟨0, 0, 1⟩ (1 / (3 / 2)) ⟨0, 0, 0⟩).1 = true ∧
      dielectric_reflect_prob Real.sqrt (3 / 2 : ℝ) ⟨⟨0, 0, 2⟩, ⟨0, 0, -1⟩⟩
          ⟨⟨0, 0, 1⟩, ⟨0, 0, 1⟩⟩ ⟨0, 0, 0⟩ =
        schlick (-dot (⟨0, 0, -1⟩ : vec3 ℝ) ⟨0, 0, 1⟩
          / (⟨0, 0, -1⟩ : vec3 ℝ).length Real.sqrt) (3 / 2) :=
  have h := dielectric_no_total_internal_reflection Real.sqrt isSqrt_real (3 / 2 : ℝ)
    ⟨⟨0, 0, 2⟩, ⟨0, 0, -1⟩⟩ ⟨⟨0, 0, 1⟩, ⟨0, 0, 1⟩⟩ ⟨0, 0, 0⟩ (by norm_num)
    (by simp [vec3.length]) (by simp [vec3.ext_iff3]) (by simp [dot])
  ⟨isSqrt_real, by norm_num, by simp [vec3.length], by simp [vec3.ext_iff3], by simp [dot],
    h.2.1, h.2.2⟩

/-- C13: whenever either variant of `random_in_unit_sphere` returns a vector,
that vector has squared length strictly less than one. -/
theorem random_in_unit_sphere_squared_length (sqrt : F → F) (dis : Nat → F) (fuel i : Nat)
    (p : vec3 F)
    (h : random_in_unit_sphere sqrt dis fuel i = some p ∨
      world_env.random_in_unit_sphere sqrt dis fuel i = some p) :
    p.squared_length < 1 := by
  induction fuel generalizing i with
  | zero =>
    rcases h with h | h
    · simp [random_in_unit_sphere] at h
    · simp [world_env.random_in_unit_sphere] at h
  | succ k ih =>
    rcases h with h | h
    · rw [random_in_unit_sphere_succ] at h
      split_ifs at h with hc
      · exact ih (i + 3) (Or.inl h)
      · rw [← Option.some.inj h]
        exact not_le.1 hc
    · rw [world_env_random_in_unit_sphere_succ] at h
      split_ifs at h with hc
      · exact ih (i + 3) (Or.inr h)
      · rw [← Option.some.inj h]
        exact not_le.1 hc

/-- Witness of C13 over the rationals, with a square root that rounds upwards
(one Heron step from `1`, `x ↦ (x + 1) / 2`): on the draws `3/4, 1/2, 1/2` the
candidate `(1/2, 0, 0)` is normalised to `(4/5, 0, 0)` and returned. -/
theorem random_in_unit_sphere_squared_length_witness :
    random_in_unit_sphere (fun x : ℚ => (x + 1) / 2)
        (fun j => if j = 0 then 3 / 4 else 1 / 2) 1 0 = some ⟨4 / 5, 0, 0⟩ ∧
      (⟨4 / 5, 0, 0⟩ : vec3 ℚ).squared_length < 1 :=
  have h : random_in_unit_sphere (fun x : ℚ => (x + 1) / 2)
      (fun j => if j = 0 then 3 / 4 else 1 / 2) 1 0 = some ⟨4 / 5, 0, 0⟩ := by
    rw [random_in_unit_sphere_succ]
    norm_num [vec3.make_unit_vector, vec3.squared_length, vec3.ext_iff3]
  ⟨h, random_in_unit_sphere_squared_length _ _ 1 0 _ (Or.inl h)⟩

/-- C14, the code at the failing input: over the reals, on the stream of draws
`3/4, 1/2, 1/2, 3/4, 1/2, 1/2, ...` (for `material.h`) or
`1/2, 0, 0, 1/2, 0, 0, ...` (for `world_env/material.h`) the candidate of every
pass is `(1/2, 0, 0)`, which is not zero and has squared length `1/4 < 1`; yet no
number of passes through the loop returns a vector, because the candidate is
normalised to `(1, 0, 0)` before its squared length is tested. -/
theorem random_in_unit_sphere_never_accepts :
    (∀ m : Nat, (2 : ℝ) * (⟨if (3 * m) % 3 = 0 then 3 / 4 else 1 / 2,
          if (3 * m + 1) % 3 = 0 then 3 / 4 else 1 / 2,
          if (3 * m + 2) % 3 = 0 then 3 / 4 else 1 / 2⟩ : vec3 ℝ) - (⟨1, 1, 1⟩ : vec3 ℝ)
        = ⟨1 / 2, 0, 0⟩) ∧
      (⟨1 / 2, 0, 0⟩ : vec3 ℝ) ≠ ⟨0, 0, 0⟩ ∧
      (⟨1 / 2, 0, 0⟩ : vec3 ℝ).squared_length < 1 ∧
      (⟨1 / 2, 0, 0⟩ : vec3 ℝ).make_unit_vector Real.sqrt = ⟨1, 0, 0⟩ ∧
      (∀ fuel : Nat, random_in_unit_sphere Real.sqrt
        (fun j => if j % 3 = 0 then (3 / 4 : ℝ) else 1 / 2) fuel 0 = none) ∧
      (∀ fuel : Nat, world_env.random_in_unit_sphere Real.sqrt
        (fun j => if j % 3 = 0 then (1 / 2 : ℝ) else 0) fuel 0 = none) := by
  have hq : Real.sqrt (1 / 2 * (1 / 2) + 0 * 0 + 0 * 0) = 1 / 2 := by
    rw [show (1 / 2 * (1 / 2) + 0 * 0 + 0 * 0 : ℝ) = 1 / 2 * (1 / 2) by norm_num]
    exact Real.sqrt_mul_self (by norm_num)
  refine ⟨?_, ?_, ?_, ?_, ?_, ?_⟩
  · intro m
    have h0 : (3 * m) % 3 = 0 := by omega
    have h1 : (3 * m + 1) % 3 ≠ 0 := by omega
    have h2 : (3 * m + 2) % 3 ≠ 0 := by omega
    simp only [h0, h1, h2, if_true, if_false, vec3.ext_iff3, vec3.sub_x, vec3.sub_y,
      vec3.sub_z, vec3.smul_x, vec3.smul_y, vec3.smul_z]
    norm_num
  · simp [vec3.ext_iff3]
  · simp only [vec3.squared_length]
    norm_num
  · simp only [vec3.make_unit_vector, hq, vec3.ext_iff3]
    norm_num
  · intro fuel
    apply random_in_unit_sphere_none isSqrt_real
    intro j
    simp only [ne_eq, vec3.ext_iff3, vec3.sub_x, vec3.sub_y, vec3.sub_z, vec3.smul_x,
      vec3.smul_y, vec3.smul_z]
    have hj : j % 3 = 0 ∨ j % 3 = 1 ∨ j % 3 = 2 := by omega
    rcases hj with hj | hj | hj
    · have h0 : j % 3 = 0 := hj
      simp only [h0, if_true]
      norm_num
    · have h2 : (j + 2) % 3 = 0 := by omega
      simp only [h2, if_true]
      norm_num
    · have h1 : (j + 1) % 3 = 0 := by omega
      simp only [h1, if_true]
      norm_num
  · intro fuel
    apply world_env_random_in_unit_sphere_none isSqrt_real
    intro j
    simp only [ne_eq, vec3.ext_iff3]
    have hj : j % 3 = 0 ∨ j % 3 = 1 ∨ j % 3 = 2 := by omega
    rcases hj with hj | hj | hj
    · have h0 : j % 3 = 0 := hj
      simp only [h0, if_true]
      norm_num
    · have h2 : (j + 2) % 3 = 0 := by omega
      simp only [h2, if_true]
      norm_num
    · have h1 : (j + 1) % 3 = 0 := by omega
      simp only [h1, if_true]
      norm_num

/-- C15: for draws `dis j` in `[0, 1)`, each rescaled draw `2 * dis j - 1` lies in
`[-1, 1)`, and the variant of `material.h` run on the draws `dis` gives, for
every bound on the number of passes and every position in the stream, the same
result (rejections and returned vector) as the variant of
`world_env/material.h` run on the rescaled draws. -/
theorem random_in_unit_sphere_variants_agree (sqrt : F → F) (dis : Nat → F)
    (h : ∀ j, 0 ≤ dis j ∧ dis j < 1) :
    (∀ j, -1 ≤ 2 * dis j - 1 ∧ 2 * dis j - 1 < 1) ∧
      ∀ fuel i : Nat, random_in_unit_sphere sqrt dis fuel i =
        world_env.random_in_unit_sphere sqrt (fun j => 2 * dis j - 1) fuel i := by
  constructor
  · intro j
    obtain ⟨h0, h1⟩ := h j
    constructor <;> linarith
  · intro fuel
    induction fuel with
    | zero => intro i; rfl
    | succ k ih =>
      intro i
      have e : (2 : F) * (⟨dis i, dis (i + 1), dis (i + 2)⟩ : vec3 F) - (⟨1, 1, 1⟩ : vec3 F)
          = ⟨2 * dis i - 1, 2 * dis (i + 1) - 1, 2 * dis (i + 2) - 1⟩ := by
        simp only [vec3.ext_iff3, vec3.sub_x, vec3.sub_y, vec3.sub_z, vec3.smul_x,
          vec3.smul_y, vec3.smul_z, and_self]
      rw [random_in_unit_sphere_succ, world_env_random_in_unit_sphere_succ, e, ih (i + 3)]

/-- Witness of C15 over the rationals, with the upward-rounding square root
`x ↦ (x + 1) / 2`: on the stream `3/4, 1/2, 1/2, ...` both variants return
`(4/5, 0, 0)` in the first pass. -/
theorem random_in_unit_sphere_variants_agree_witness :
    (∀ j : Nat, (0 : ℚ) ≤ (if j = 0 then 3 / 4 else 1 / 2) ∧
        (if j = 0 then 3 / 4 else 1 / 2 : ℚ) < 1) ∧
      random_in_unit_sphere (fun x : ℚ => (x + 1) / 2)
          (fun j => if j = 0 then 3 / 4 else 1 / 2) 1 0 =
        world_env.random_in_unit_sphere (fun x : ℚ => (x + 1) / 2)
          (fun j => 2 * (if j = 0 then 3 / 4 else 1 / 2) - 1) 1 0 ∧
      world_env.random_in_unit_sphere (fun x : ℚ => (x + 1) / 2)
          (fun j => 2 * (if j = 0 then 3 / 4 else 1 / 2) - 1) 1 0 = some ⟨4 / 5, 0, 0⟩ :=
  have hr : ∀ j : Nat, (0 : ℚ) ≤ (if j = 0 then 3 / 4 else 1 / 2) ∧
      (if j = 0 then 3 / 4 else 1 / 2 : ℚ) < 1 := by
    intro j
    split_ifs <;> norm_num
  ⟨hr,
    (random_in_unit_sphere_variants_agree (fun x : ℚ => (x + 1) / 2)
      (fun j => if j = 0 then 3 / 4 else 1 / 2) hr).2 1 0,
    by
      rw [world_env_random_in_unit_sphere_succ]
      norm_num [vec3.make_unit_vector, vec3.squared_length, vec3.ext_iff3]⟩

/-- C16: for a non-zero incident `v`, a normal `n` of length one and a ratio `k`
with positive discriminant, `refract` succeeds and the vector it stores has
length exactly one. -/
theorem refract_length_one (sqrt : F → F) (hs : IsSqrt sqrt) (v n : vec3 F) (k : F)
    (refracted : vec3 F) (hv : v ≠ ⟨0, 0, 0⟩) (hn : n.length sqrt = 1)
    (hD : 0 < 1 - k ^ 2 * (1 - dot (unit_vector sqrt v) n ^ 2)) :
    (refract sqrt v n k refracted).1 = true ∧
      (refract sqrt v n k refracted).2.length sqrt = 1 := by
  have hD2 : 0 < 1 - k * k * (1 - dot (unit_vector sqrt v) n * dot (unit_vector sqrt v) n) := by
    have e : 1 - k * k * (1 - dot (unit_vector sqrt v) n * dot (unit_vector sqrt v) n)
        = 1 - k ^ 2 * (1 - dot (unit_vector sqrt v) n ^ 2) := by ring
    rw [e]
    exact hD
  rw [refract_of_pos sqrt v n k refracted hD2]
  refine ⟨rfl, ?_⟩
  have hu := unit_vector_squared_length hs v hv
  have hn2 := squared_length_of_length_one hs n hn
  obtain ⟨_, hss⟩ := hs _ (le_of_lt hD2)
  exact length_eq_of_squared_length hs _ 1 zero_le_one
    (by rw [refract_formula_squared_length _ n k _ hu hn2 hss]; ring)

/-- Witness of C16 over the reals: `v = (0, 0, -2)`, `n = (0, 0, 1)`, `k = 2/3`. -/
theorem refract_length_one_witness :
    IsSqrt Real.sqrt ∧ (⟨0, 0, -2⟩ : vec3 ℝ) ≠ ⟨0, 0, 0⟩ ∧
      (⟨0, 0, 1⟩ : vec3 ℝ).length Real.sqrt = 1 ∧
      (refract Real.sqrt (⟨0, 0, -2⟩ : vec3 ℝ) ⟨0, 0, 1⟩ (2 / 3) ⟨0, 0, 0⟩).2.length Real.sqrt
        = 1 :=
  have h2 : Real.sqrt (0 * 0 + 0 * 0 + -2 * -2) = 2 := by
    rw [show (0 * 0 + 0 * 0 + -2 * -2 : ℝ) = 2 * 2 by norm_num]
    exact Real.sqrt_mul_self (by norm_num)
  ⟨isSqrt_real, by simp [vec3.ext_iff3], by simp [vec3.length],
    (refract_length_one Real.sqrt isSqrt_real ⟨0, 0, -2⟩ ⟨0, 0, 1⟩ (2 / 3) ⟨0, 0, 0⟩
      (by simp [vec3.ext_iff3]) (by simp [vec3.length])
      (by
        simp only [unit_vector, vec3.length, dot, vec3.div_x, vec3.div_y, vec3.div_z, h2]
        norm_num)).2⟩

/-- C17: in the exiting branch (`dot d n > 0`, `d ≠ 0`) the radicand
`1 - ri^2 * (1 - c^2)` with `c = dot d n / length d`, whose root is the Schlick
cosine, equals the discriminant computed by `refract d (-n) ri`; `refract`
succeeds exactly when it is positive, so whenever refraction succeeds the
radicand is strictly positive and `schlick` receives the root of a positive
number. -/
theorem dielectric_exiting_radicand (sqrt : F → F) (ref_idx : F) (r_in : ray F)
    (rec : intersec_record F) (refracted0 : vec3 F)
    (hdot : 0 < dot r_in.direction rec.normal) (_hd : r_in.direction ≠ ⟨0, 0, 0⟩) :
    1 - ref_idx ^ 2 * (1 - (dot r_in.direction rec.normal / r_in.direction.length sqrt) ^ 2)
        = 1 - ref_idx * ref_idx
          * (1 - dot (unit_vector sqrt r_in.direction) (-rec.normal)
            * dot (unit_vector sqrt r_in.direction) (-rec.normal)) ∧
      ((refract sqrt r_in.direction (-rec.normal) ref_idx refracted0).1 = true ↔
        0 < 1 - ref_idx ^ 2
          * (1 - (dot r_in.direction rec.normal / r_in.direction.length sqrt) ^ 2)) ∧
      ((dielectric_refract sqrt ref_idx r_in rec refracted0).1 = true →
        0 < 1 - ref_idx ^ 2
          * (1 - (dot r_in.direction rec.normal / r_in.direction.length sqrt) ^ 2) ∧
        dielectric_reflect_prob sqrt ref_idx r_in rec refracted0 =
          schlick (sqrt (1 - ref_idx ^ 2
            * (1 - (dot r_in.direction rec.normal / r_in.direction.length sqrt) ^ 2)))
            ref_idx) := by
  have e : 1 - ref_idx ^ 2
        * (1 - (dot r_in.direction rec.normal / r_in.direction.length sqrt) ^ 2)
      = 1 - ref_idx * ref_idx
        * (1 - dot (unit_vector sqrt r_in.direction) (-rec.normal)
          * dot (unit_vector sqrt r_in.direction) (-rec.normal)) := by
    rw [dot_neg_right, dot_unit_vector]
    ring
  have hiff : (refract sqrt r_in.direction (-rec.normal) ref_idx refracted0).1 = true ↔
      0 < 1 - ref_idx ^ 2
        * (1 - (dot r_in.direction rec.normal / r_in.direction.length sqrt) ^ 2) := by
    rw [e]
    constructor
    · intro h
      by_contra hc
      rw [refract_of_not_pos _ _ _ _ _ hc] at h
      exact Bool.false_ne_true h
    · intro h
      rw [refract_of_pos _ _ _ _ _ h]
  have hside : dielectric_side sqrt ref_idx r_in rec =
      (-rec.normal, ref_idx,
        sqrt (1 - ref_idx ^ 2
          * (1 - (dot r_in.direction rec.normal / r_in.direction.length sqrt) ^ 2))) := by
    unfold dielectric_side
    rw [if_pos hdot]
    simp only [pow_two]
  have hr : dielectric_refract sqrt ref_idx r_in rec refracted0 =
      refract sqrt r_in.direction (-rec.normal) ref_idx refracted0 := by
    unfold dielectric_refract
    simp only [hside]
  refine ⟨e, hiff, ?_⟩
  intro h
  refine ⟨hiff.1 (by rw [← hr]; exact h), ?_⟩
  unfold dielectric_reflect_prob
  simp only [h, hside, if_true]

/-- Witness of C17 over the reals: a ray along `(0, 0, 1)` leaving through the
normal `(0, 0, 1)` with index `2`; the radicand is `1` and refraction succeeds. -/
theorem dielectric_exiting_radicand_witness :
    0 < dot (⟨0, 0, 1⟩ : vec3 ℝ) ⟨0, 0, 1⟩ ∧ (⟨0, 0, 1⟩ : vec3 ℝ) ≠ ⟨0, 0, 0⟩ ∧
      (refract Real.sqrt (⟨0, 0, 1⟩ : vec3 ℝ) (-⟨0, 0, 1⟩) 2 ⟨0, 0, 0⟩).1 = true ∧
      (0 : ℝ) < 1 - 2 ^ 2 * (1 - (dot (⟨0, 0, 1⟩ : vec3 ℝ) ⟨0, 0, 1⟩
        / (⟨0, 0, 1⟩ : vec3 ℝ).length Real.sqrt) ^ 2) :=
  have h := dielectric_exiting_radicand Real.sqrt (2 : ℝ) ⟨⟨0, 0, 0⟩, ⟨0, 0, 1⟩⟩
    ⟨⟨0, 0, 1⟩, ⟨0, 0, 1⟩⟩ ⟨0, 0, 0⟩ (by simp [dot]) (by simp [vec3.ext_iff3])
  have hp : (0 : ℝ) < 1 - 2 ^ 2 * (1 - (dot (⟨0, 0, 1⟩ : vec3 ℝ) ⟨0, 0, 1⟩
      / (⟨0, 0, 1⟩ : vec3 ℝ).length Real.sqrt) ^ 2) := by
    simp [dot, vec3.length]
  ⟨by simp [dot], by simp [vec3.ext_iff3], h.2.1.2 hp, hp⟩

/-- C18: for a refractive index `ri > 0`, a normal of length one and a non-zero
incident direction, the reflect probability of `dielectric::scatter`
(`schlick cosine ri` when refraction succeeds, `1` otherwise) is at least the
base reflectance `((1 - ri) / (1 + ri))^2` and lies in `[0, 1]`. -/
theorem dielectric_reflect_prob_bounds (sqrt : F → F) (hs : IsSqrt sqrt) (ref_idx : F)
    (r_in : ray F) (rec : intersec_record F) (refracted0 : vec3 F) (hri : 0 < ref_idx)
    (hn : rec.normal.length sqrt = 1) (hd : r_in.direction ≠ ⟨0, 0, 0⟩) :
    ((1 - ref_idx) / (1 + ref_idx)) ^ 2
        ≤ dielectric_reflect_prob sqrt ref_idx r_in rec refracted0 ∧
      0 ≤ dielectric_reflect_prob sqrt ref_idx r_in rec refracted0 ∧
      dielectric_reflect_prob sqrt ref_idx r_in rec refracted0 ≤ 1 := by
  have hr0 := base_reflectance_bounds ref_idx (le_of_lt hri)
  have hr0n : 0 ≤ ((1 - ref_idx) / (1 + ref_idx)) ^ 2 := by
    rw [pow_two]
    exact hr0.1
  have hr01 : ((1 - ref_idx) / (1 + ref_idx)) ^ 2 ≤ 1 := by
    rw [pow_two]
    exact hr0.2
  have hu := unit_vector_squared_length hs r_in.direction hd
  have hn2 := squared_length_of_length_one hs rec.normal hn
  have hc := dot_mul_self_le_one (unit_vector sqrt r_in.direction) rec.normal hu hn2
  rw [dot_unit_vector] at hc
  have hL := length_pos hs r_in.direction hd
  have key : ((1 - ref_idx) / (1 + ref_idx)) ^ 2
        ≤ dielectric_reflect_prob sqrt ref_idx r_in rec refracted0 ∧
      dielectric_reflect_prob sqrt ref_idx r_in rec refracted0 ≤ 1 := by
    by_cases hf : (dielectric_refract sqrt ref_idx r_in rec refracted0).1 = true
    · by_cases hdot : 0 < dot r_in.direction rec.normal
      · have hside : dielectric_side sqrt ref_idx r_in rec =
            (-rec.normal, ref_idx,
              sqrt (1 - ref_idx * ref_idx
                * (1 - dot r_in.direction rec.normal / r_in.direction.length sqrt
                  * (dot r_in.direction rec.normal / r_in.direction.length sqrt)))) := by
          unfold dielectric_side
          rw [if_pos hdot]
        have hpos : 0 < 1 - ref_idx * ref_idx
            * (1 - dot r_in.direction rec.normal / r_in.direction.length sqrt
              * (dot r_in.direction rec.normal / r_in.direction.length sqrt)) := by
          by_contra hc2
          have hc3 : ¬ 0 < 1 - ref_idx * ref_idx
              * (1 - dot (unit_vector sqrt r_in.direction) (-rec.normal)
                * dot (unit_vector sqrt r_in.direction) (-rec.normal)) := by
            rw [dot_neg_right, dot_unit_vector]
            intro h
            apply hc2
            have e : 1 - ref_idx * ref_idx
                * (1 - dot r_in.direction rec.normal / r_in.direction.length sqrt
                  * (dot r_in.direction rec.normal / r_in.direction.length sqrt))
                = 1 - ref_idx * ref_idx
                  * (1 - -(dot r_in.direction rec.normal / r_in.direction.length sqrt)
                    * -(dot r_in.direction rec.normal / r_in.direction.length sqrt)) := by
              ring
            rw [e]
            exact h
          unfold dielectric_refract at hf
          simp only [hside] at hf
          rw [refract_of_not_pos _ _ _ _ _ hc3] at hf
          exact Bool.false_ne_true hf
        have hle : 1 - ref_idx * ref_idx
            * (1 - dot r_in.direction rec.normal / r_in.direction.length sqrt
              * (dot r_in.direction rec.normal / r_in.direction.length sqrt)) ≤ 1 := by
          have h1 : 0 ≤ ref_idx * ref_idx := mul_self_nonneg _
          nlinarith
        have hp : dielectric_reflect_prob sqrt ref_idx r_in rec refracted0 =
            schlick (sqrt (1 - ref_idx * ref_idx
              * (1 - dot r_in.direction rec.normal / r_in.direction.length sqrt
                * (dot r_in.direction rec.normal / r_in.direction.length sqrt)))) ref_idx := by
          unfold dielectric_reflect_prob
          simp only [hf, hside, if_true]
        rw [hp]
        exact schlick_bounds _ ref_idx (le_of_lt hri) (hs _ (le_of_lt hpos)).1
          (sqrt_le_one hs _ (le_of_lt hpos) hle)
      · have hside : dielectric_side sqrt ref_idx r_in rec =
            (rec.normal, 1 / ref_idx,
              -dot r_in.direction rec.normal / r_in.direction.length sqrt) := by
          unfold dielectric_side
          rw [if_neg hdot]
        have hp : dielectric_reflect_prob sqrt ref_idx r_in rec refracted0 =
            schlick (-dot r_in.direction rec.normal / r_in.direction.length sqrt) ref_idx := by
          unfold dielectric_reflect_prob
          simp only [hf, hside, if_true]
        have hc0 : 0 ≤ -dot r_in.direction rec.normal / r_in.direction.length sqrt :=
          div_nonneg (by linarith [not_lt.1 hdot]) (le_of_lt hL)
        have hc1 : -dot r_in.direction rec.normal / r_in.direction.length sqrt ≤ 1 := by
          by_contra hgt
          have hgt2 : 1 < -dot r_in.direction rec.normal / r_in.direction.length sqrt :=
            not_le.1 hgt
          have : 1 * 1 < -dot r_in.direction rec.normal / r_in.direction.length sqrt
              * (-dot r_in.direction rec.normal / r_in.direction.length sqrt) :=
            mul_lt_mul hgt2 (le_of_lt hgt2) one_pos hc0
          have e : -dot r_in.direction rec.normal / r_in.direction.length sqrt
              * (-dot r_in.direction rec.normal / r_in.direction.length sqrt)
              = dot r_in.direction rec.normal / r_in.direction.length sqrt
                * (dot r_in.direction rec.normal / r_in.direction.length sqrt) := by ring
          rw [e] at this
          linarith
        rw [hp]
        exact schlick_bounds _ ref_idx (le_of_lt hri) hc0 hc1
    · have hp : dielectric_reflect_prob sqrt ref_idx r_in rec refracted0 = 1 := by
        unfold dielectric_reflect_prob
        rw [if_neg hf]
      rw [hp]
      exact ⟨hr01, le_refl 1⟩
  exact ⟨key.1, le_trans hr0n key.1, key.2⟩

/-- Witness of C18 over the reals: glass of index `3/2` hit straight on by a ray
along `(0, 0, -1)` on the normal `(0, 0, 1)`. -/
theorem dielectric_reflect_prob_bounds_witness :
    IsSqrt Real.sqrt ∧ (0 : ℝ) < 3 / 2 ∧ (⟨0, 0, 1⟩ : vec3 ℝ).length Real.sqrt = 1 ∧
      (⟨0, 0, -1⟩ : vec3 ℝ) ≠ ⟨0, 0, 0⟩ ∧
      ((1 - 3 / 2) / (1 + 3 / 2) : ℝ) ^ 2
        ≤ dielectric_reflect_prob Real.sqrt (3 / 2 : ℝ) ⟨⟨0, 0, 2⟩, ⟨0, 0, -1⟩⟩
          ⟨⟨0, 0, 1⟩, ⟨0, 0, 1⟩⟩ ⟨0, 0, 0⟩ ∧
      dielectric_reflect_prob Real.sqrt (3 / 2 : ℝ) ⟨⟨0, 0, 2⟩, ⟨0, 0, -1⟩⟩
          ⟨⟨0, 0, 1⟩, ⟨0, 0, 1⟩⟩ ⟨0, 0, 0⟩ ≤ 1 :=
  have h := dielectric_reflect_prob_bounds Real.sqrt isSqrt_real (3 / 2 : ℝ)
    ⟨⟨0, 0, 2⟩, ⟨0, 0, -1⟩⟩ ⟨⟨0, 0, 1⟩, ⟨0, 0, 1⟩⟩ ⟨0, 0, 0⟩ (by norm_num)
    (by simp [vec3.length]) (by simp [vec3.ext_iff3])
  ⟨isSqrt_real, by norm_num, by simp [vec3.length], by simp [vec3.ext_iff3], h.1, h.2.2⟩

/-- C19: for a normal of length one and a non-zero incident direction `d`,
`metal::scatter` returns true exactly when `dot d n < 0`; a ray with
`dot d n ≥ 0` (tangent or back-facing) is absorbed. -/
theorem metal_scatter_iff_front_facing (sqrt : F → F) (hs : IsSqrt sqrt) (albedo : vec3 F)
    (r_in : ray F) (rec : intersec_record F) (hn : rec.normal.length sqrt = 1)
    (hd : r_in.direction ≠ ⟨0, 0, 0⟩) :
    ((metal_scatter sqrt albedo r_in rec).ok = true ↔ dot r_in.direction rec.normal < 0) ∧
      (0 ≤ dot r_in.direction rec.normal → (metal_scatter sqrt albedo r_in rec).ok = false) := by
  have hn2 := squared_length_of_length_one hs rec.normal hn
  have hL := length_pos hs r_in.direction hd
  have hval : dot (reflect (unit_vector sqrt r_in.direction) rec.normal) rec.normal
      = -(dot r_in.direction rec.normal / r_in.direction.length sqrt) := by
    rw [reflect_dot_of_unit _ _ hn2, dot_unit_vector]
  have hiff : (metal_scatter sqrt albedo r_in rec).ok = true ↔
      dot r_in.direction rec.normal < 0 := by
    simp only [metal_scatter, gt_iff_lt, decide_eq_true_eq, hval, neg_pos]
    constructor
    · intro h
      rcases div_neg_iff.1 h with ⟨_, h2⟩ | ⟨h1, _⟩
      · exact absurd h2 (not_lt.2 (le_of_lt hL))
      · exact h1
    · intro h
      exact div_neg_of_neg_of_pos h hL
  refine ⟨hiff, ?_⟩
  intro h
  rw [← Bool.not_eq_true, hiff]
  exact not_lt.2 h

/-- Witness of C19 over the reals: a ray along `(0, 0, -1)` onto the normal
`(0, 0, 1)` strikes from the outward side and is scattered. -/
theorem metal_scatter_iff_front_facing_witness :
    IsSqrt Real.sqrt ∧ (⟨0, 0, 1⟩ : vec3 ℝ).length Real.sqrt = 1 ∧
      (⟨0, 0, -1⟩ : vec3 ℝ) ≠ ⟨0, 0, 0⟩ ∧ dot (⟨0, 0, -1⟩ : vec3 ℝ) ⟨0, 0, 1⟩ < 0 ∧
      (metal_scatter Real.sqrt (⟨4 / 5, 4 / 5, 4 / 5⟩ : vec3 ℝ) ⟨⟨0, 0, 2⟩, ⟨0, 0, -1⟩⟩
        ⟨⟨0, 0, 1⟩, ⟨0, 0, 1⟩⟩).ok = true :=
  ⟨isSqrt_real, by simp [vec3.length], by simp [vec3.ext_iff3], by simp [dot],
    (metal_scatter_iff_front_facing Real.sqrt isSqrt_real (⟨4 / 5, 4 / 5, 4 / 5⟩ : vec3 ℝ)
      ⟨⟨0, 0, 2⟩, ⟨0, 0, -1⟩⟩ ⟨⟨0, 0, 1⟩, ⟨0, 0, 1⟩⟩ (by simp [vec3.length])
      (by simp [vec3.ext_iff3])).1.2 (by simp [dot])⟩

/-- C20: for a normal `n` of length one, a non-zero incident direction `d` and a
refractive index `ri > 0`, whenever `refract` stored a direction `t` and
`dielectric::scatter` takes the refracted branch, the scattered direction is `t`,
with `dot t n > 0` if `dot d n > 0` (exiting) and `dot t n < 0` if `dot d n ≤ 0`
(entering). -/
theorem dielectric_transmitted_crosses (sqrt : F → F) (hs : IsSqrt sqrt) (ref_idx : F)
    (r_in : ray F) (rec : intersec_record F) (refracted0 : vec3 F) (u : F) (t : vec3 F)
    (_hri : 0 < ref_idx) (hn : rec.normal.length sqrt = 1)
    (_hd : r_in.direction ≠ ⟨0, 0, 0⟩)
    (ht : dielectric_refract sqrt ref_idx r_in rec refracted0 = (true, t))
    (hbranch : ¬ u < dielectric_reflect_prob sqrt ref_idx r_in rec refracted0) :
    (dielectric_scatter sqrt ref_idx r_in rec refracted0 u).scattered.direction = t ∧
      (0 < dot r_in.direction rec.normal → 0 < dot t rec.normal) ∧
      (dot r_in.direction rec.normal ≤ 0 → dot t rec.normal < 0) := by
  have hn2 := squared_length_of_length_one hs rec.normal hn
  have hdir : (dielectric_scatter sqrt ref_idx r_in rec refracted0 u).scattered.direction
      = t := by
    unfold dielectric_scatter
    simp only [if_neg hbranch, ht]
  have hform : ∀ (N : vec3 F) (k : F), N.squared_length = 1 →
      refract sqrt r_in.direction N k refracted0 = (true, t) → dot t N < 0 := by
    intro N k hN hr
    by_cases hD : 0 < 1 - k * k * (1 - dot (unit_vector sqrt r_in.direction) N
        * dot (unit_vector sqrt r_in.direction) N)
    · rw [refract_of_pos _ _ _ _ _ hD] at hr
      have ht2 := (Prod.mk.inj hr).2
      rw [← ht2, refract_formula_dot _ _ _ _ hN]
      have := sqrt_pos_of_pos hs _ hD
      linarith
    · rw [refract_of_not_pos _ _ _ _ _ hD] at hr
      exact absurd (Prod.mk.inj hr).1 Bool.false_ne_true
  refine ⟨hdir, ?_, ?_⟩
  · intro hdot
    have hside : dielectric_side sqrt ref_idx r_in rec =
        (-rec.normal, ref_idx,
          sqrt (1 - ref_idx * ref_idx
            * (1 - dot r_in.direction rec.normal / r_in.direction.length sqrt
              * (dot r_in.direction rec.normal / r_in.direction.length sqrt)))) := by
      unfold dielectric_side
      rw [if_pos hdot]
    unfold dielectric_refract at ht
    simp only [hside] at ht
    have h := hform (-rec.normal) ref_idx (by rw [squared_length_neg]; exact hn2) ht
    rw [dot_neg_right] at h
    linarith
  · intro hdot
    have hside : dielectric_side sqrt ref_idx r_in rec =
        (rec.normal, 1 / ref_idx,
          -dot r_in.direction rec.normal / r_in.direction.length sqrt) := by
      unfold dielectric_side
      rw [if_neg (not_lt.2 hdot)]
    unfold dielectric_refract at ht
    simp only [hside] at ht
    exact hform rec.normal (1 / ref_idx) hn2 ht

/-- Witness of C20 over the reals: glass of index `3/2` hit straight on by a ray
along `(0, 0, -1)` on the normal `(0, 0, 1)`; with the sample `1/2`, which is
not below the reflect probability `1/25`, the ray is transmitted along
`(0, 0, -1)`. -/
theorem dielectric_transmitted_crosses_witness :
    IsSqrt Real.sqrt ∧ (0 : ℝ) < 3 / 2 ∧ (⟨0, 0, 1⟩ : vec3 ℝ).length Real.sqrt = 1 ∧
      (⟨0, 0, -1⟩ : vec3 ℝ) ≠ ⟨0, 0, 0⟩ ∧
      dielectric_refract Real.sqrt (3 / 2 : ℝ) ⟨⟨0, 0, 2⟩, ⟨0, 0, -1⟩⟩
        ⟨⟨0, 0, 1⟩, ⟨0, 0, 1⟩⟩ ⟨0, 0, 0⟩ = (true, ⟨0, 0, -1⟩) ∧
      dielectric_reflect_prob Real.sqrt (3 / 2 : ℝ) ⟨⟨0, 0, 2⟩, ⟨0, 0, -1⟩⟩
        ⟨⟨0, 0, 1⟩, ⟨0, 0, 1⟩⟩ ⟨0, 0, 0⟩ = 1 / 25 ∧
      (dielectric_scatter Real.sqrt (3 / 2 : ℝ) ⟨⟨0, 0, 2⟩, ⟨0, 0, -1⟩⟩
        ⟨⟨0, 0, 1⟩, ⟨0, 0, 1⟩⟩ ⟨0, 0, 0⟩ (1 / 2)).scattered.direction = ⟨0, 0, -1⟩ ∧
      dot (⟨0, 0, -1⟩ : vec3 ℝ) ⟨0, 0, 1⟩ < 0 :=
  have hside : dielectric_side Real.sqrt (3 / 2 : ℝ) ⟨⟨0, 0, 2⟩, ⟨0, 0, -1⟩⟩
      ⟨⟨0, 0, 1⟩, ⟨0, 0, 1⟩⟩ = ((⟨0, 0, 1⟩ : vec3 ℝ), 1 / (3 / 2), 1) := by
    simp [dielectric_side, dot, vec3.length]
  have ht : dielectric_refract Real.sqrt (3 / 2 : ℝ) ⟨⟨0, 0, 2⟩, ⟨0, 0, -1⟩⟩
      ⟨⟨0, 0, 1⟩, ⟨0, 0, 1⟩⟩ ⟨0, 0, 0⟩ = (true, ⟨0, 0, -1⟩) := by
    unfold dielectric_refract
    rw [hside]
    rw [refract_of_pos _ _ _ _ _ (by
      show (0 : ℝ) < 1 - 1 / (3 / 2) * (1 / (3 / 2))
        * (1 - dot (unit_vector Real.sqrt ⟨0, 0, -1⟩) ⟨0, 0, 1⟩
          * dot (unit_vector Real.sqrt ⟨0, 0, -1⟩) ⟨0, 0, 1⟩)
      simp [unit_vector, vec3.length, dot])]
    simp [unit_vector, vec3.length, dot, vec3.ext_iff3]
  have hp : dielectric_reflect_prob Real.sqrt (3 / 2 : ℝ) ⟨⟨0, 0, 2⟩, ⟨0, 0, -1⟩⟩
      ⟨⟨0, 0, 1⟩, ⟨0, 0, 1⟩⟩ ⟨0, 0, 0⟩ = 1 / 25 := by
    unfold dielectric_reflect_prob
    simp only [ht, hside, if_true]
    norm_num [schlick]
  have h := dielectric_transmitted_crosses Real.sqrt isSqrt_real (3 / 2 : ℝ)
    ⟨⟨0, 0, 2⟩, ⟨0, 0, -1⟩⟩ ⟨⟨0, 0, 1⟩, ⟨0, 0, 1⟩⟩ ⟨0, 0, 0⟩ (1 / 2) ⟨0, 0, -1⟩
    (by norm_num) (by simp [vec3.length]) (by simp [vec3.ext_iff3]) ht
    (by rw [hp]; norm_num)
  ⟨isSqrt_real, by norm_num, by simp [vec3.length], by simp [vec3.ext_iff3], ht, hp, h.1,
    h.2.2 (by simp [dot])⟩

end Claims

end Raytracer
